import Mathlib

/-!
# GloVe training core (`src/glove.c`): a shallow embedding

The C file keeps its configuration and its two parameter buffers in static
variables.  Here they become explicit values:

* `Globals` holds the configuration read by `glove_thread` and `train_glove`;
* `State` holds the buffers `W`, `gradsq`, `cost` and the two scratch arrays
  of a worker; a buffer is a total map from its (long long) index to the value
  stored there, and a C store `p[i] = v` is `Function.update p i v`;
* the C type `real` (a double) is a type parameter `R` together with the
  primitive operations the code applies to it (`Arith R`): every definition
  below composes those primitives in exactly the order the C expressions do,
  and a theorem holds for every interpretation of the primitives unless its
  statement names `XR`.

`XR` is a concrete interpretation (rationals extended with the two infinities
and NaN) on which the definitions can be evaluated.
-/

namespace GloVe

/-! ## The arithmetic of `real` -/

/-- The primitive operations `glove.c` applies to values of type `real`:
the literals `0` and `0.5`, the four arithmetic operators, the library calls
`sqrt`, `log`, `pow`, the comparison `>`, the classifiers `isnan`, `isinf`,
the conversion of an integer to `real` and the literal `1.0`. -/
structure Arith (R : Type) where
  zero : R
  half : R
  add : R → R → R
  sub : R → R → R
  mul : R → R → R
  div : R → R → R
  sqrt : R → R
  log : R → R
  pow : R → R → R
  gt : R → R → Bool
  isnan : R → Bool
  isinf : R → Bool
  ofInt : Int → R
  one : R

/-- Extended rationals: a finite rational value, plus or minus infinity, or
NaN.  Finite operations are exact (no rounding, hence no overflow); the
special values follow the IEEE-754 rules the C operators obey. -/
inductive XR where
  | fin (q : ℚ)
  | pinf
  | ninf
  | nan
  deriving DecidableEq

namespace XR

/-- Negation. -/
def neg : XR → XR
  | fin q => fin (-q)
  | pinf => ninf
  | ninf => pinf
  | nan => nan

/-- Addition: `inf + -inf` is NaN. -/
def add : XR → XR → XR
  | nan, _ => nan
  | _, nan => nan
  | fin a, fin b => fin (a + b)
  | fin _, pinf => pinf
  | fin _, ninf => ninf
  | pinf, ninf => nan
  | ninf, pinf => nan
  | pinf, _ => pinf
  | ninf, _ => ninf

/-- Subtraction. -/
def sub (x y : XR) : XR := add x (neg y)

/-- An infinity of the sign of `q`; NaN when `q = 0` (the case `0 * inf`). -/
def infOfSign (q : ℚ) : XR :=
  if q = 0 then nan else if 0 < q then pinf else ninf

/-- Multiplication: `0 * inf` is NaN. -/
def mul : XR → XR → XR
  | nan, _ => nan
  | _, nan => nan
  | fin a, fin b => fin (a * b)
  | fin a, pinf => infOfSign a
  | fin a, ninf => infOfSign (-a)
  | pinf, fin b => infOfSign b
  | ninf, fin b => infOfSign (-b)
  | pinf, pinf => pinf
  | pinf, ninf => ninf
  | ninf, pinf => ninf
  | ninf, ninf => pinf

/-- Division: `x / 0` is an infinity of the sign of `x` (the zero is `+0`),
`0 / 0` and `inf / inf` are NaN, a finite value over an infinity is `0`. -/
def div : XR → XR → XR
  | nan, _ => nan
  | _, nan => nan
  | fin a, fin b => if b = 0 then infOfSign a else fin (a / b)
  | fin _, pinf => fin 0
  | fin _, ninf => fin 0
  | pinf, fin b => if 0 ≤ b then pinf else ninf
  | ninf, fin b => if 0 ≤ b then ninf else pinf
  | pinf, pinf => nan
  | pinf, ninf => nan
  | ninf, pinf => nan
  | ninf, ninf => nan

/-- The natural number whose square is `n`, searched below `k`. -/
def natRoot (n : Nat) : Nat → Option Nat
  | 0 => none
  | k + 1 => if k * k = n then some k else natRoot n k

/-- Square root, exact: defined where the root is rational, NaN on negative
arguments; an irrational root is not representable and is mapped to NaN. -/
def sqrt : XR → XR
  | fin q =>
    if q < 0 then nan else
      match natRoot q.num.toNat (q.num.toNat + 1), natRoot q.den (q.den + 1) with
      | some n, some d => fin ((n : ℚ) / (d : ℚ))
      | _, _ => nan
  | pinf => pinf
  | ninf => nan
  | nan => nan

/-- Natural logarithm on the arguments where it is rational or special:
`log 1 = 0`, `log 0 = -inf`, `log inf = inf`, NaN on negative arguments;
other arguments are not representable and are mapped to NaN. -/
def log : XR → XR
  | fin q => if q < 0 then nan else if q = 0 then ninf else if q = 1 then fin 0 else nan
  | pinf => pinf
  | ninf => nan
  | nan => nan

/-- The C `pow` on the arguments where it is rational or special:
`pow(x, 0) = 1` and `pow(1, y) = 1` for every argument, a natural exponent
is an exact power, `pow(inf, y)` is `inf` or `0` by the sign of `y`;
other arguments are not representable and are mapped to NaN. -/
def pow : XR → XR → XR
  | _, fin 0 => fin 1
  | fin a, fin b =>
    if a = 1 then fin 1
    else if b.den = 1 ∧ 0 ≤ b.num then fin (a ^ b.num.toNat) else nan
  | fin a, _ => if a = 1 then fin 1 else nan
  | pinf, fin b => if 0 < b then pinf else fin 0
  | _, _ => nan

/-- The comparison `x > y`: false as soon as one side is NaN. -/
def gt : XR → XR → Bool
  | nan, _ => false
  | _, nan => false
  | fin a, fin b => decide (b < a)
  | pinf, pinf => false
  | pinf, _ => true
  | fin _, ninf => true
  | _, _ => false

/-- The classifier `isnan`. -/
def isnan : XR → Bool
  | nan => true
  | _ => false

/-- The classifier `isinf`. -/
def isinf : XR → Bool
  | pinf => true
  | ninf => true
  | _ => false

/-- The interpretation of `real` by extended rationals. -/
def arith : Arith XR where
  zero := fin 0
  half := fin (1 / 2)
  add := add
  sub := sub
  mul := mul
  div := div
  sqrt := sqrt
  log := log
  pow := pow
  gt := gt
  isnan := isnan
  isinf := isinf
  ofInt := fun z => fin z
  one := fin 1

end XR

/-! ## Data model -/

/-- One co-occurrence record, `struct cooccur_rec` (`CREC`). -/
structure CREC (R : Type) where
  word1 : Int
  word2 : Int
  val : R

/-- The static configuration variables read by the training code. -/
structure Globals (R : Type) where
  vector_size : Int
  vocab_size : Int
  eta : R
  alpha : R
  x_max : R
  num_lines : Int
  num_threads : Int

/-- The memory a worker touches: the shared buffers `W` and `gradsq`, the
array `cost` (one entry per worker) and the worker's scratch arrays
`W_updates1`, `W_updates2`. -/
structure State (R : Type) where
  W : Int → R
  gradsq : Int → R
  cost : Int → R
  W_updates1 : Int → R
  W_updates2 : Int → R

/-! ## `check_nan` and the body of the record loop of `glove_thread` -/

/-- The function `check_nan`: `0.` for a NaN or infinite update, the update
otherwise. -/
def check_nan {R : Type} (A : Arith R) (update : R) : R :=
  if A.isnan update || A.isinf update then A.zero else update

/-- Offset of the word row, `l1 = (cr.word1 - 1LL) * (vector_size + 1)`. -/
def row_l1 {R : Type} (g : Globals R) (cr : CREC R) : Int :=
  (cr.word1 - 1) * (g.vector_size + 1)

/-- Offset of the context row,
`l2 = ((cr.word2 - 1LL) + vocab_size) * (vector_size + 1)`. -/
def row_l2 {R : Type} (g : Globals R) (cr : CREC R) : Int :=
  ((cr.word2 - 1) + g.vocab_size) * (g.vector_size + 1)

/-- The loop `for (b = 0; b < n; b++) diff += W[b + l1] * W[b + l2]`
started from `diff = 0`. -/
def dot_loop {R : Type} (A : Arith R) (W : Int → R) (l1 l2 : Int) (n : Nat) : R :=
  (List.range n).foldl
    (fun (diff : R) (b : Nat) => A.add diff (A.mul (W (b + l1)) (W (b + l2)))) A.zero

/-- The value of `diff` after line 145: the dot product plus
`W[vector_size + l1] + W[vector_size + l2] - log(cr.val)`. -/
def diff_of {R : Type} (A : Arith R) (g : Globals R) (s : State R) (cr : CREC R) : R :=
  A.add (dot_loop A s.W (row_l1 g cr) (row_l2 g cr) g.vector_size.toNat)
    (A.sub (A.add (s.W (g.vector_size + row_l1 g cr)) (s.W (g.vector_size + row_l2 g cr)))
      (A.log cr.val))

/-- The value of `fdiff` after line 146:
`(cr.val > x_max) ? diff : pow(cr.val / x_max, alpha) * diff`. -/
def fdiff_of {R : Type} (A : Arith R) (g : Globals R) (s : State R) (cr : CREC R) : R :=
  if A.gt cr.val g.x_max then diff_of A g s cr
  else A.mul (A.pow (A.div cr.val g.x_max) g.alpha) (diff_of A g s cr)

/-- The test of line 149. -/
def diff_bad {R : Type} (A : Arith R) (diff fdiff : R) : Bool :=
  A.isnan diff || A.isnan fdiff || A.isinf diff || A.isinf fdiff

/-- One pass of the loop of lines 160-171 at component `b`; the two running
sums `W_updates1_sum`, `W_updates2_sum` travel with the state. -/
def grad_body {R : Type} (A : Arith R) (fdiff : R) (l1 l2 : Int)
    (acc : State R × R × R) (b : Nat) : State R × R × R :=
  let s := acc.1
  let temp1 := A.mul fdiff (s.W (b + l2))
  let temp2 := A.mul fdiff (s.W (b + l1))
  let u1 := A.div temp1 (A.sqrt (s.gradsq (b + l1)))
  let u2 := A.div temp2 (A.sqrt (s.gradsq (b + l2)))
  let G1 := Function.update s.gradsq (b + l1) (A.add (s.gradsq (b + l1)) (A.mul temp1 temp1))
  let G2 := Function.update G1 (b + l2) (A.add (G1 (b + l2)) (A.mul temp2 temp2))
  ({ s with
      gradsq := G2
      W_updates1 := Function.update s.W_updates1 b u1
      W_updates2 := Function.update s.W_updates2 b u2 },
    A.add acc.2.1 u1, A.add acc.2.2 u2)

/-- The loop of lines 160-171, with both sums started at `0`. -/
def grad_loop {R : Type} (A : Arith R) (fdiff : R) (l1 l2 : Int) (n : Nat)
    (s : State R) : State R × R × R :=
  (List.range n).foldl (grad_body A fdiff l1 l2) (s, A.zero, A.zero)

/-- One pass of the loop of lines 173-176 at component `b`. -/
def apply_body {R : Type} (A : Arith R) (l1 l2 : Int) (s : State R) (b : Nat) : State R :=
  let W1 := Function.update s.W (b + l1) (A.sub (s.W (b + l1)) (s.W_updates1 b))
  let W2 := Function.update W1 (b + l2) (A.sub (W1 (b + l2)) (s.W_updates2 b))
  { s with W := W2 }

/-- The loop of lines 173-176. -/
def apply_loop {R : Type} (A : Arith R) (l1 l2 : Int) (n : Nat) (s : State R) : State R :=
  (List.range n).foldl (apply_body A l1 l2) s

/-- The guard of line 172 on the two sums. -/
def sums_ok {R : Type} (A : Arith R) (sum1 sum2 : R) : Bool :=
  !A.isnan sum1 && !A.isinf sum1 && !A.isnan sum2 && !A.isinf sum2

/-- Lines 158-177: the accumulation loop, then the guarded update of the
embedding components. -/
def embedding_update {R : Type} (A : Arith R) (fdiff : R) (l1 l2 : Int) (n : Nat)
    (s : State R) : State R :=
  let r := grad_loop A fdiff l1 l2 n s
  if sums_ok A r.2.1 r.2.2 then apply_loop A l1 l2 n r.1 else r.1

/-- Lines 180-184: the two bias updates, `fdiff *= fdiff`, and the two
accumulations on the bias entries of `gradsq`. -/
def bias_update {R : Type} (A : Arith R) (fdiff : R) (l1 l2 vector_size : Int)
    (s : State R) : State R :=
  let W1 := Function.update s.W (vector_size + l1)
    (A.sub (s.W (vector_size + l1))
      (check_nan A (A.div fdiff (A.sqrt (s.gradsq (vector_size + l1))))))
  let W2 := Function.update W1 (vector_size + l2)
    (A.sub (W1 (vector_size + l2))
      (check_nan A (A.div fdiff (A.sqrt (s.gradsq (vector_size + l2))))))
  let fdiff2 := A.mul fdiff fdiff
  let G1 := Function.update s.gradsq (vector_size + l1)
    (A.add (s.gradsq (vector_size + l1)) fdiff2)
  let G2 := Function.update G1 (vector_size + l2) (A.add (G1 (vector_size + l2)) fdiff2)
  { s with W := W2, gradsq := G2 }

/-- The body of the record loop of `glove_thread` (lines 134-184) for a
record `cr` that was read: worker `id`, state `s` before, the state after. -/
def process_record {R : Type} (A : Arith R) (g : Globals R) (id : Int) (s : State R)
    (cr : CREC R) : State R :=
  if cr.word1 < 1 ∨ cr.word2 < 1 then s
  else
    let l1 := row_l1 g cr
    let l2 := row_l2 g cr
    let diff := diff_of A g s cr
    let fdiff := fdiff_of A g s cr
    if diff_bad A diff fdiff then s
    else
      let cost1 := Function.update s.cost id
        (A.add (s.cost id) (A.mul (A.mul A.half fdiff) diff))
      let s1 : State R := { s with cost := cost1 }
      let fdiff := A.mul fdiff g.eta
      let s2 := embedding_update A fdiff l1 l2 g.vector_size.toNat s1
      bias_update A fdiff l1 l2 g.vector_size s2

/-- The record loop of `glove_thread` (lines 131-186): `n` is the number of
passes left, the list holds the records from the file position on; the loop
stops early when `fread` finds no record (`feof`). -/
def thread_loop {R : Type} (A : Arith R) (g : Globals R) (id : Int) :
    Nat → List (CREC R) → State R → State R
  | 0, _, s => s
  | _ + 1, [], s => s
  | n + 1, cr :: rest, s => thread_loop A g id n rest (process_record A g id s cr)

/-- The function `glove_thread` for worker `id` on a file of records:
seek to record `num_lines / num_threads * id`, reset `cost[id]`, then run
`lines_per_thread[id]` passes of the record loop. -/
def glove_thread {R : Type} (A : Arith R) (g : Globals R) (lines_per_thread : Int → Int)
    (file : List (CREC R)) (id : Int) (s : State R) : State R :=
  thread_loop A g id (lines_per_thread id).toNat
    (file.drop (g.num_lines.tdiv g.num_threads * id).toNat)
    { s with cost := Function.update s.cost id A.zero }

/-! ## `save_params` -/

/-! ### Bytes and C strings

The vocabulary file is a sequence of bytes, and the field width of `%1000s`
counts bytes; so the tokens of the file are lists of bytes (`List UInt8`), and
a word of a UTF-8 file counts with its bytes, not with its code points
(`utf8 text` are the bytes of a text).  A C string held in memory (`char *`:
the buffer `word`, the literal `"<unk>"`), which `strcmp` and the conversion
`%s` of `fprintf` read up to its terminating NUL, is a `String` with one `Char`
for each byte, the byte `b` being the `Char` of code `b`; `c_string bs` is the
C string held by a buffer in which the bytes `bs` are followed by a NUL. -/

/-- The type of the C strings in memory: a `String` read one `Char` per
byte. -/
abbrev CString := String

/-- The C string held by a buffer in which the bytes `bs` are followed by a
NUL: the bytes of `bs` before its first NUL byte, all of `bs` when it has
none. -/
def c_string (bs : List UInt8) : CString :=
  String.mk ((bs.takeWhile (fun (b : UInt8) => b ≠ 0)).map
    (fun (b : UInt8) => Char.ofNat b.toNat))

/-- The bytes of a text in UTF-8, the encoding of a vocabulary file with
words outside ASCII. -/
def utf8 (text : String) : List UInt8 := text.data.flatMap String.utf8EncodeChar

/-- What one call writes to an output stream: `fprintf(f, "%s", word)`,
`fprintf(f, " %lf", x)`, `fprintf(f, "\n")`, or `fwrite(&x, sizeof(real), 1, f)`. -/
inductive Out (R : Type) where
  | word (w : CString)
  | field (x : R)
  | newline
  | raw (x : R)
  deriving DecidableEq

/-- The output files: a path is absent (`none`) or holds what the program
has written to the stream opened on it since it was last opened for writing
(`fopen(_, "wb")` creates the file or cuts it to length zero).  What is
written to a stream reaches the file when the stream is flushed: by `fclose`
or, for a stream that an early `return` leaves open, by the C library, at the
latest when the process exits. -/
abbrev Files (R : Type) := String → Option (List (Out R))

/-- The static variables read by `save_params` besides those of `Globals`. -/
structure SaveGlobals where
  use_binary : Int
  save_gradsq : Int
  model : Int
  use_unk_vec : Int
  save_W_file : String
  save_gradsq_file : String

/-- What `save_params` finds outside the program: which paths `fopen(_, "wb")`
can open, the whitespace-separated tokens of the vocabulary file in file
order, each token given by its bytes, which are not whitespace (`none` when
the file cannot be opened; it is none of the output files), and the bytes
held by the freshly allocated buffer `word`. -/
structure SaveEnv where
  writable : String → Bool
  vocab : Option (List (List UInt8))
  word0 : List UInt8

/-- The constant `MAX_STRING_LENGTH`, a number of bytes. -/
def MAX_STRING_LENGTH : Nat := 1000

/-- The conversion `%03d` of a positive `int`: decimal digits, padded with
zeros on the left to three characters. -/
def fmt03 (n : Int) : String :=
  "".pushn '0' (3 - (Nat.repr n.toNat).length) ++ Nat.repr n.toNat

/-- The file name built by `sprintf` (lines 214-217, 224-227, 236-244):
`base.ext` when `nb_iter <= 0`, `base.NNN.ext` otherwise. -/
def output_name (base : String) (nb_iter : Int) (ext : String) : String :=
  if nb_iter ≤ 0 then base ++ "." ++ ext else base ++ "." ++ fmt03 nb_iter ++ "." ++ ext

/-- The call `fopen(path, "wb")`: `none` for `NULL`; on success the file
exists and is empty. -/
def fopen_wb {R : Type} (env : SaveEnv) (fs : Files R) (path : String) : Option (Files R) :=
  if env.writable path then some (Function.update fs path (some [])) else none

/-- Writing `items` to the stream open on `path`. -/
def fwrite_items {R : Type} (fs : Files R) (path : String) (items : List (Out R)) : Files R :=
  Function.update fs path (some ((fs path).getD [] ++ items))

/-- The call `fscanf(fid, "%1000s", word)` on the remaining tokens of the
file, each token a list of bytes: at the end of the input it returns `EOF`
(`-1`) and leaves `word` alone; otherwise it returns `1` and stores in `word`
the next token, at most `MAX_STRING_LENGTH` bytes of it (the other bytes of a
longer token stay in the input). -/
def fscanf_s (toks : List (List UInt8)) (word : CString) :
    Int × CString × List (List UInt8) :=
  match toks with
  | [] => (-1, word, [])
  | t :: ts =>
    if t.length ≤ MAX_STRING_LENGTH then (1, c_string t, ts)
    else (1, c_string (t.take MAX_STRING_LENGTH), t.drop MAX_STRING_LENGTH :: ts)

/-- The loop `for (b = 0; b < n; b++) fprintf(f, " %lf", buf[start + b])`. -/
def row_fields {R : Type} (buf : Int → R) (start : Int) (n : Nat) : List (Out R) :=
  (List.range n).map (fun (b : Nat) => Out.field (buf (start + b)))

/-- The numeric fields of a line by output model (lines 259-266 and
292-299), for a word vector `v` and a context vector `c` read from their
first components on: model 0 writes the `D + 1` entries of each, model 1 the
first `D` entries of `v`, model 2 the first `D` sums `v[b] + c[b]`. -/
def model_fields {R : Type} (A : Arith R) (model vector_size : Int) (v c : Int → R) :
    List (Out R) :=
  (if model = 0 then row_fields v 0 (vector_size + 1).toNat ++ row_fields c 0 (vector_size + 1).toNat
    else []) ++
  (if model = 1 then row_fields v 0 vector_size.toNat else []) ++
  (if model = 2 then
      (List.range vector_size.toNat).map (fun (b : Nat) => Out.field (A.add (v b) (c b)))
    else [])

/-- The line of vocabulary entry `a` in the main text file (lines 258-267). -/
def word_line {R : Type} (A : Arith R) (g : Globals R) (sg : SaveGlobals) (s : State R)
    (a : Int) (word : CString) : List (Out R) :=
  [Out.word word] ++
    model_fields A sg.model g.vector_size
      (fun b => s.W (a * (g.vector_size + 1) + b))
      (fun b => s.W ((g.vocab_size + a) * (g.vector_size + 1) + b)) ++
    [Out.newline]

/-- The line of vocabulary entry `a` in the gradsq text file (lines 269-272). -/
def gradsq_line {R : Type} (g : Globals R) (s : State R) (a : Int) (word : CString) :
    List (Out R) :=
  [Out.word word] ++
    row_fields s.gradsq (a * (g.vector_size + 1)) (g.vector_size + 1).toNat ++
    row_fields s.gradsq ((g.vocab_size + a) * (g.vector_size + 1)) (g.vector_size + 1).toNat ++
    [Out.newline]

/-- How the vocabulary loop ends: by a `return` with a code, or by running
to its end. -/
inductive LoopEnd (R : Type) where
  | ret (code : Int) (fs : Files R)
  | done (fs : Files R)

/-- The vocabulary loop of lines 254-275: `n` passes left, `a` the index of
the current entry, `toks` the unread tokens, `word` the buffer. -/
def vocab_loop {R : Type} (A : Arith R) (g : Globals R) (sg : SaveGlobals) (s : State R)
    (out gsq : String) : Nat → Int → List (List UInt8) → CString → Files R → LoopEnd R
  | 0, _, _, _, fs => LoopEnd.done fs
  | n + 1, a, toks, word, fs =>
    let r1 := fscanf_s toks word
    if r1.1 = 0 then LoopEnd.ret 1 fs
    else if r1.2.1 = "<unk>" then LoopEnd.ret 1 fs
    else
      let fs1 := fwrite_items fs out (word_line A g sg s a r1.2.1)
      let fs2 := if sg.save_gradsq > 0 then fwrite_items fs1 gsq (gradsq_line g s a r1.2.1)
        else fs1
      let r2 := fscanf_s r1.2.2 r1.2.1
      if r2.1 = 0 then LoopEnd.ret 1 fs2
      else vocab_loop A g sg s out gsq n (a + 1) r2.2.2 r2.2.1 fs2

/-- The inner loop of lines 285-288 for row `a`: every component of the two
accumulators is raised by the row's entry over `num_rare_words`. -/
def unk_row {R : Type} (A : Arith R) (g : Globals R) (s : State R) (num_rare_words : Int)
    (acc : (Int → R) × (Int → R)) (a : Int) : (Int → R) × (Int → R) :=
  (List.range (g.vector_size + 1).toNat).foldl
    (fun (p : (Int → R) × (Int → R)) (b : Nat) =>
      (Function.update p.1 (b : Int)
          (A.add (p.1 b) (A.div (s.W (a * (g.vector_size + 1) + b)) (A.ofInt num_rare_words))),
        Function.update p.2 (b : Int)
          (A.add (p.2 b)
            (A.div (s.W ((g.vocab_size + a) * (g.vector_size + 1) + b))
              (A.ofInt num_rare_words)))))
    acc

/-- Lines 278-289: `unk_vec` and `unk_context`, zeroed by `calloc`, after the
loop over the last `num_rare_words = min(vocab_size, 100)` rows. -/
def unk_vectors {R : Type} (A : Arith R) (g : Globals R) (s : State R) :
    (Int → R) × (Int → R) :=
  let num_rare_words : Int := if g.vocab_size < 100 then g.vocab_size else 100
  (List.range num_rare_words.toNat).foldl
    (fun (p : (Int → R) × (Int → R)) (k : Nat) =>
      unk_row A g s num_rare_words p (g.vocab_size - num_rare_words + k))
    (fun _ => A.zero, fun _ => A.zero)

/-- The line of the unknown word (lines 291-300). -/
def unk_line {R : Type} (A : Arith R) (g : Globals R) (sg : SaveGlobals) (s : State R) :
    List (Out R) :=
  [Out.word "<unk>"] ++
    model_fields A sg.model g.vector_size (unk_vectors A g s).1 (unk_vectors A g s).2 ++
    [Out.newline]

/-- The loop `for (a = 0; a < n; a++) fwrite(&buf[a], sizeof(real), 1, f)`. -/
def raw_dump {R : Type} (buf : Int → R) (n : Nat) : List (Out R) :=
  (List.range n).map (fun (a : Nat) => Out.raw (buf a))

/-- Lines 213-234 of `save_params`, the binary files: `Sum.inl` is an early
`return`, `Sum.inr` goes on to the text part. -/
def save_binary {R : Type} (g : Globals R) (sg : SaveGlobals) (s : State R) (env : SaveEnv)
    (fs : Files R) (nb_iter : Int) : Int × Files R ⊕ Files R :=
  if sg.use_binary > 0 then
    match fopen_wb env fs (output_name sg.save_W_file nb_iter "bin") with
    | none => Sum.inl (1, fs)
    | some fs1 =>
      let fs2 := fwrite_items fs1 (output_name sg.save_W_file nb_iter "bin")
        (raw_dump s.W (2 * g.vocab_size * (g.vector_size + 1)).toNat)
      if sg.save_gradsq > 0 then
        match fopen_wb env fs2 (output_name sg.save_gradsq_file nb_iter "bin") with
        | none => Sum.inl (1, fs2)
        | some fs3 =>
          Sum.inr (fwrite_items fs3 (output_name sg.save_gradsq_file nb_iter "bin")
            (raw_dump s.gradsq (2 * g.vocab_size * (g.vector_size + 1)).toNat))
      else Sum.inr fs2
  else Sum.inr fs

/-- Lines 235-309 of `save_params`, the text files. -/
def save_text {R : Type} (A : Arith R) (g : Globals R) (sg : SaveGlobals) (s : State R)
    (env : SaveEnv) (fs : Files R) (nb_iter : Int) : Int × Files R :=
  if sg.use_binary ≠ 1 then
    let out := output_name sg.save_W_file nb_iter "txt"
    let gsq := output_name sg.save_gradsq_file nb_iter "txt"
    let opened_gsq : Option (Files R) :=
      if sg.save_gradsq > 0 then fopen_wb env fs gsq else some fs
    match opened_gsq with
    | none => (1, fs)
    | some fs1 =>
      match fopen_wb env fs1 out with
      | none => (1, fs1)
      | some fs2 =>
        match env.vocab with
        | none => (1, fs2)
        | some toks =>
          match vocab_loop A g sg s out gsq g.vocab_size.toNat 0 toks
              (c_string env.word0) fs2 with
          | LoopEnd.ret code fs3 => (code, fs3)
          | LoopEnd.done fs3 =>
            if sg.use_unk_vec ≠ 0 then (0, fwrite_items fs3 out (unk_line A g sg s))
            else (0, fs3)
  else (0, fs)

/-- The function `save_params`: the return code and the output files after
the call.  A stream left open by an early `return` keeps what was written
to it: the file is there, created or cut to length zero by `fopen`, and what
was written reaches it when the C library flushes the stream, at the latest
at the exit of the process. -/
def save_params {R : Type} (A : Arith R) (g : Globals R) (sg : SaveGlobals) (s : State R)
    (env : SaveEnv) (fs : Files R) (nb_iter : Int) : Int × Files R :=
  match save_binary g sg s env fs nb_iter with
  | Sum.inl r => r
  | Sum.inr fs1 => save_text A g sg s env fs1 nb_iter

/-! ## The quantities the update formulas are written with -/

/-- The scaled residual `g`: the value of `fdiff` after `fdiff *= eta`
(line 157), that is `(f * diff) * eta`, where `f * diff` is `diff` itself
when `cr.val > x_max`. -/
def g_of {R : Type} (A : Arith R) (g : Globals R) (s : State R) (cr : CREC R) : R :=
  A.mul (fdiff_of A g s cr) g.eta

/-- The loss term of one record, `0.5 * fdiff * diff` with `fdiff = f * diff`
not yet scaled by `eta` (line 154). -/
def loss_of {R : Type} (A : Arith R) (g : Globals R) (s : State R) (cr : CREC R) : R :=
  A.mul (A.mul A.half (fdiff_of A g s cr)) (diff_of A g s cr)

/-- The state after line 154: `cost[id]` raised by the loss term. -/
def add_loss {R : Type} (A : Arith R) (g : Globals R) (id : Int) (s : State R)
    (cr : CREC R) : State R :=
  { s with cost := Function.update s.cost id (A.add (s.cost id) (loss_of A g s cr)) }

/-- The update `u1[b] = g * W[b + l2] / sqrt(G[b + l1])` of the word row. -/
def u1_of {R : Type} (A : Arith R) (gg : R) (W G : Int → R) (l1 l2 : Int) (b : Nat) : R :=
  A.div (A.mul gg (W (b + l2))) (A.sqrt (G (b + l1)))

/-- The update `u2[b] = g * W[b + l1] / sqrt(G[b + l2])` of the context row. -/
def u2_of {R : Type} (A : Arith R) (gg : R) (W G : Int → R) (l1 l2 : Int) (b : Nat) : R :=
  A.div (A.mul gg (W (b + l1))) (A.sqrt (G (b + l2)))

/-- The sum `u[0] + ... + u[n-1]`, added up from `0` in index order. -/
def sum_of {R : Type} (A : Arith R) (u : Nat → R) (n : Nat) : R :=
  (List.range n).foldl (fun (acc : R) (b : Nat) => A.add acc (u b)) A.zero

/-- The square `x * x`. -/
def sq_of {R : Type} (A : Arith R) (x : R) : R := A.mul x x

/-- A value that is neither NaN nor infinite. -/
abbrev finite {R : Type} (A : Arith R) (x : R) : Prop :=
  A.isnan x = false ∧ A.isinf x = false

/-! ## Worker runs and the order on `real` -/

/-- A sequence of worker runs over one record file, one after the other:
`ids` lists the workers in the order they run (over any number of epochs). -/
def run_workers {R : Type} (A : Arith R) (g : Globals R) (lines_per_thread : Int → Int)
    (file : List (CREC R)) : List Int → State R → State R
  | [], s => s
  | id :: ids, s =>
    run_workers A g lines_per_thread file ids (glove_thread A g lines_per_thread file id s)

namespace XR

end XR

/-! ## Concrete inputs -/

/-- A configuration: one word, one embedding component, `x_max = 2`,
`alpha = 1`, `eta = 1/2`, one worker. -/
def ex_globals : Globals XR :=
  { vector_size := 1, vocab_size := 1, eta := XR.fin (1 / 2), alpha := XR.fin 1,
    x_max := XR.fin 2, num_lines := 1, num_threads := 1 }

/-- A state: every entry of `W` and of `gradsq` is `1`, every cost is `0`. -/
def ex_state : State XR :=
  { W := fun _ => XR.fin 1, gradsq := fun _ => XR.fin 1, cost := fun _ => XR.fin 0,
    W_updates1 := fun _ => XR.fin 0, W_updates2 := fun _ => XR.fin 0 }

/-- The record `(word1 = 1, word2 = 1, val = 1)`. -/
def ex_record : CREC XR := { word1 := 1, word2 := 1, val := XR.fin 1 }

/-- The record `(word1 = 1, word2 = 1, val = 0)`: `log(0)` is `-inf`, so
`diff` is `+inf` and `fdiff = pow(0 / 2, 1) * diff = 0 * inf` is NaN. -/
def ex_record_zero : CREC XR := { word1 := 1, word2 := 1, val := XR.fin 0 }

/-- The record `(word1 = 0, word2 = 1, val = 1)`, with a word id below `1`. -/
def ex_record_malformed : CREC XR := { word1 := 0, word2 := 1, val := XR.fin 1 }

/-- The configuration `ex_globals` with an infinite learning rate: `diff` and
`fdiff` stay finite, the scaled residual `g` and every update are infinite. -/
def ex_globals_inf : Globals XR := { ex_globals with eta := XR.pinf }

/-- The configuration `ex_globals` with a vocabulary of two words. -/
def ex_globals_two : Globals XR := { ex_globals with vocab_size := 2 }

/-- The default output options: text only, no gradsq file, output model 2,
unknown-word line enabled. -/
def ex_save : SaveGlobals :=
  { use_binary := 0, save_gradsq := 0, model := 2, use_unk_vec := 1,
    save_W_file := "vectors", save_gradsq_file := "gradsq" }

/-- Every output file can be opened; the vocabulary file holds the entries
`the 10` and `<unk> 5`. -/
def ex_env_unk : SaveEnv :=
  { writable := fun _ => true,
    vocab := some [utf8 "the", utf8 "10", utf8 "<unk>", utf8 "5"], word0 := [] }

/-! ## The partition computed by `train_glove` -/

/-- The loop `for (a = 0; a < m; a++) lines_per_thread[a] = q` of line 350. -/
def fill_loop (q : Int) (arr : Int → Int) (m : Nat) : Int → Int :=
  (List.range m).foldl (fun (t : Int → Int) (a : Nat) => Function.update t (a : Int) q) arr

/-- Lines 350-351 of `train_glove`: the loop stores `num_lines / num_threads`
at the indices below `num_threads - 1`, then the entry at the index the loop
stopped on receives the quotient plus `num_lines % num_threads`. -/
def fill_lines_per_thread (num_lines num_threads : Int) (arr : Int → Int) : Int → Int :=
  let n := (num_threads - 1).toNat
  let arr1 := fill_loop (num_lines.tdiv num_threads) arr n
  Function.update arr1 (n : Int) (num_lines.tdiv num_threads + num_lines.tmod num_threads)

/-- The record a worker seeks to before reading (line 126): the byte offset
`(num_lines / num_threads * id) * sizeof(CREC)` counted in records. -/
def start_record (num_lines num_threads id : Int) : Int :=
  num_lines.tdiv num_threads * id

/-- The sum of the entries `arr[0], ..., arr[n-1]`. -/
def sum_lines (arr : Int → Int) (n : Nat) : Int :=
  ((List.range n).map (fun (a : Nat) => arr (a : Int))).sum

/-- Every output file can be opened; the vocabulary file holds the single
entry `the 10`, one entry short of a vocabulary size of two. -/
def ex_env_short : SaveEnv :=
  { writable := fun _ => true, vocab := some [utf8 "the", utf8 "10"], word0 := [] }

/-! ## The text written for a complete vocabulary -/

/-- The tokens, each given by its bytes, of a vocabulary file made of
`(word, frequency)` entries. -/
def vocab_tokens (entries : List (List UInt8 × List UInt8)) : List (List UInt8) :=
  entries.flatMap (fun e => [e.1, e.2])

/-- One line for each vocabulary entry, in file order, the first entry being
entry number `a`: the line of an entry starts with its word, as a C
string. -/
def entry_lines {R : Type} (A : Arith R) (g : Globals R) (sg : SaveGlobals) (s : State R) :
    Int → List (List UInt8 × List UInt8) → List (List (Out R))
  | _, [] => []
  | a, e :: es => word_line A g sg s a (c_string e.1) :: entry_lines A g sg s (a + 1) es

/-- The lines of the main text file: the vocabulary entries in file order,
then the line of the unknown word. -/
def text_lines {R : Type} (A : Arith R) (g : Globals R) (sg : SaveGlobals) (s : State R)
    (entries : List (List UInt8 × List UInt8)) : List (List (Out R)) :=
  entry_lines A g sg s 0 entries ++ [unk_line A g sg s]

/-- A line made of the word token `w`, the numeric fields `vals` and a
newline. -/
def line_of {R : Type} (w : CString) (vals : List R) : List (Out R) :=
  Out.word w :: vals.map Out.field ++ [Out.newline]

/-- The body of the loop of lines 285-288 at component `b` of row `a`. -/
def unk_body {R : Type} (A : Arith R) (g : Globals R) (s : State R) (num_rare_words : Int)
    (a : Int) (p : (Int → R) × (Int → R)) (b : Nat) : (Int → R) × (Int → R) :=
  (Function.update p.1 (b : Int)
      (A.add (p.1 b) (A.div (s.W (a * (g.vector_size + 1) + b)) (A.ofInt num_rare_words))),
    Function.update p.2 (b : Int)
      (A.add (p.2 b)
        (A.div (s.W ((g.vocab_size + a) * (g.vector_size + 1) + b)) (A.ofInt num_rare_words))))

/-- The number of rows averaged for the unknown word, `min(vocab_size, 100)`. -/
def num_rare {R : Type} (g : Globals R) : Int :=
  if g.vocab_size < 100 then g.vocab_size else 100

/-- The mean of component `b` over the `num_rare` rows that start at row
`first`, as the code adds it up: the quotients `W[row][b] / num_rare`, summed
from `0` in row order. -/
def mean_of {R : Type} (A : Arith R) (g : Globals R) (W : Int → R) (first : Int) (b : Int) : R :=
  sum_of A
    (fun (k : Nat) => A.div (W ((first + k) * (g.vector_size + 1) + b)) (A.ofInt (num_rare g)))
    (num_rare g).toNat

/-- Every output file can be opened; the vocabulary file holds the entries
`the 10` and `of 5`. -/
def ex_env_two : SaveEnv :=
  { writable := fun _ => true,
    vocab := some [utf8 "the", utf8 "10", utf8 "of", utf8 "5"], word0 := [] }

/-- A state whose buffer `W` holds its own index at every entry. -/
def ex_state_ramp : State XR := { ex_state with W := fun i => XR.fin i }

/-! ## `initialize_parameters` -/

/-- The value stored by the `k`-th assignment of the loop nest of line 100:
`(rand() / (real)RAND_MAX - 0.5) / vector_size`, where `rand k` is the output
of the `k`-th call of `rand()`, `RAND_MAX` the constant of the C library and
`vector_size` the value the variable has in the loop. -/
def init_draw {R : Type} (A : Arith R) (RAND_MAX : Int) (rand : Nat → Int) (vector_size : Int)
    (k : Nat) : R :=
  A.div (A.sub (A.div (A.ofInt (rand k)) (A.ofInt RAND_MAX)) A.half) (A.ofInt vector_size)

/-- One assignment `buf[a * vector_size + b] = val` of the loop nests of
lines 100 and 101; the count of assignments made so far travels with the
buffer. -/
def fill_inner {R : Type} (val : Nat → R) (vector_size : Int) (b : Nat)
    (acc : (Int → R) × Nat) (a : Nat) : (Int → R) × Nat :=
  (Function.update acc.1 (a * vector_size + b) (val acc.2), acc.2 + 1)

/-- The loop nest `for (b = 0; b < vector_size; b++) for (a = 0; a < m; a++)
buf[a * vector_size + b] = val` of lines 100 and 101. -/
def fill_loops {R : Type} (val : Nat → R) (vector_size : Int) (m : Nat) (buf : Int → R) :
    (Int → R) × Nat :=
  (List.range vector_size.toNat).foldl
    (fun (acc : (Int → R) × Nat) (b : Nat) =>
      (List.range m).foldl (fill_inner val vector_size b) acc)
    (buf, 0)

/-- The function `initialize_parameters`: `vector_size` is incremented, the
freshly allocated buffers (of arbitrary content `s.W`, `s.gradsq`) are
filled by the two loop nests over `b < vector_size`, `a < 2 * vocab_size`,
and `vector_size` is decremented. -/
def initialize_parameters {R : Type} (A : Arith R) (RAND_MAX : Int) (rand : Nat → Int)
    (g : Globals R) (s : State R) : Globals R × State R :=
  let g1 : Globals R := { g with vector_size := g.vector_size + 1 }
  let W := (fill_loops (init_draw A RAND_MAX rand g1.vector_size) g1.vector_size
    (2 * g1.vocab_size).toNat s.W).1
  let gradsq := (fill_loops (fun _ => A.one) g1.vector_size (2 * g1.vocab_size).toNat
    s.gradsq).1
  ({ g1 with vector_size := g1.vector_size - 1 }, { s with W := W, gradsq := gradsq })

/-- A random generator that returns `0` at every call. -/
def ex_rand_zero : Nat → Int := fun _ => 0

/-- The value of `RAND_MAX` of the GNU C library. -/
def ex_RAND_MAX : Int := 2147483647

/-- A random generator that returns `0` and `RAND_MAX` in turn. -/
def ex_rand_alt : Nat → Int := fun k => if k % 2 = 0 then 0 else ex_RAND_MAX

/-! ## `train_glove` -/

/-- The static variables read by `train_glove` besides those of `Globals`. -/
structure TrainGlobals where
  num_iter : Int
  checkpoint_every : Int

/-- What a call of `train_glove` leaves: its return code, the memory, the
output files, the arguments of its calls of `save_params` in the order they
were made, and the number of epochs it ran. -/
structure TrainResult (R : Type) where
  code : Int
  state : State R
  files : Files R
  saves : List Int
  epochs : Int

/-- The workers `0, ..., num_threads - 1` of one epoch, run one after the
other on the partition of lines 350-351: one of the schedules of the
threads the epoch creates and joins. -/
def epoch_sequential {R : Type} (A : Arith R) (arr : Int → Int) (g : Globals R)
    (file : List (CREC R)) (s : State R) : State R :=
  run_workers A g (fill_lines_per_thread g.num_lines g.num_threads arr) file
    ((List.range g.num_threads.toNat).map (fun (a : Nat) => (a : Int))) s

/-- The epoch loop of `train_glove` (lines 348-377) and the final save of
line 384: `n` epochs left, `b` epochs done.  The function `epoch` is the
effect on the memory of the threads of epoch `b`, whatever their schedule. -/
def epoch_loop {R : Type} (A : Arith R) (g : Globals R) (sg : SaveGlobals) (tg : TrainGlobals)
    (env : SaveEnv) (epoch : Int → State R → State R) :
    Nat → Int → State R → Files R → List Int → TrainResult R
  | 0, b, s, fs, saves =>
    let r := save_params A g sg s env fs 0
    { code := r.1, state := s, files := r.2, saves := saves ++ [0], epochs := b }
  | n + 1, b, s, fs, saves =>
    let s1 := epoch b s
    if tg.checkpoint_every > 0 ∧ (b + 1).tmod tg.checkpoint_every = 0 then
      let r := save_params A g sg s1 env fs (b + 1)
      if r.1 ≠ 0 then
        { code := r.1, state := s1, files := r.2, saves := saves ++ [b + 1], epochs := b + 1 }
      else epoch_loop A g sg tg env epoch n (b + 1) s1 r.2 (saves ++ [b + 1])
    else epoch_loop A g sg tg env epoch n (b + 1) s1 fs saves

/-- The globals the epochs run with: `num_lines` is the number of records of
the input file, and `initialize_parameters` has run. -/
def train_globals {R : Type} (A : Arith R) (RAND_MAX : Int) (rand : Nat → Int)
    (g : Globals R) (s : State R) (file : List (CREC R)) : Globals R :=
  (initialize_parameters A RAND_MAX rand { g with num_lines := file.length } s).1

/-- The function `train_glove`: `input` is the content of the co-occurrence
file in records, `none` when it cannot be opened; `epoch` gives, for the
globals and the file, the effect of the threads of each epoch. -/
def train_glove {R : Type} (A : Arith R) (RAND_MAX : Int) (rand : Nat → Int) (g : Globals R)
    (sg : SaveGlobals) (tg : TrainGlobals) (env : SaveEnv) (input : Option (List (CREC R)))
    (epoch : Globals R → List (CREC R) → Int → State R → State R)
    (s : State R) (fs : Files R) : TrainResult R :=
  match input with
  | none => { code := 1, state := s, files := fs, saves := [], epochs := 0 }
  | some file =>
    epoch_loop A (train_globals A RAND_MAX rand g s file) sg tg env
      (epoch (train_globals A RAND_MAX rand g s file) file) tg.num_iter.toNat 0
      (initialize_parameters A RAND_MAX rand { g with num_lines := file.length } s).2 fs []

/-- The epochs `e` of `(b, b + n]` with `c > 0` and `e mod c = 0`, in
increasing order. -/
def checkpoints_from (c b : Int) (n : Nat) : List Int :=
  ((List.range n).map (fun (k : Nat) => b + 1 + (k : Int))).filter
    (fun e => decide (c > 0 ∧ e % c = 0))

/-- The epochs `e` of `1..N` with `c > 0` and `e mod c = 0`, in increasing
order. -/
def checkpoints (N c : Int) : List Int := checkpoints_from c 0 N.toNat

/-- The output options `ex_save` in binary-only mode. -/
def ex_save_binary : SaveGlobals := { ex_save with use_binary := 1 }

/-- Four epochs with a checkpoint after every epoch. -/
def ex_train : TrainGlobals := { num_iter := 4, checkpoint_every := 1 }

/-- Every output file can be opened. -/
def ex_env_open : SaveEnv := { writable := fun _ => true, vocab := none, word0 := [] }

/-- Every output file can be opened but the checkpoint `vectors.002.bin`. -/
def ex_env_closed2 : SaveEnv :=
  { writable := fun p => decide (p ≠ "vectors.002.bin"), vocab := none, word0 := [] }

/-- The record `(word1 = 1, word2 = 2, val = 1)`. -/
def ex_record_12 : CREC XR := { word1 := 1, word2 := 2, val := XR.fin 1 }

/-! ## Worker ranges -/

/-- The record index `r` lies in the range of worker `i`: from the record the
worker seeks to, over `lines_per_thread[i]` records. -/
def worker_range (num_lines num_threads : Int) (arr : Int → Int) (i r : Int) : Prop :=
  start_record num_lines num_threads i ≤ r ∧
  r < start_record num_lines num_threads i + fill_lines_per_thread num_lines num_threads arr i

/-- The state a worker starts its record loop in: `cost[id] = 0` (line 127). -/
def reset_cost {R : Type} (A : Arith R) (s : State R) (id : Int) : State R :=
  { s with cost := Function.update s.cost id A.zero }

/-- The configuration `ex_globals` with a file of 7 records and 3 workers. -/
def ex_globals_73 : Globals XR := { ex_globals with num_lines := 7, num_threads := 3 }

/-- Output files before a call: every path holds a line `old`. -/
def ex_files_old : Files XR := fun _ => some [Out.word "old", Out.newline]

/-- The bytes of the vocabulary `the 10`, `of 5`. -/
def ex_entries : List (List UInt8 × List UInt8) :=
  [(utf8 "the", utf8 "10"), (utf8 "of", utf8 "5")]

/-! ## Loop lemmas -/

theorem grad_loop_succ {R : Type} (A : Arith R) (f : R) (l1 l2 : Int) (n : Nat) (s : State R) :
    grad_loop A f l1 l2 (n + 1) s = grad_body A f l1 l2 (grad_loop A f l1 l2 n s) n := by
  simp [grad_loop, List.range_succ, List.foldl_append]

theorem apply_loop_succ {R : Type} (A : Arith R) (l1 l2 : Int) (n : Nat) (s : State R) :
    apply_loop A l1 l2 (n + 1) s = apply_body A l1 l2 (apply_loop A l1 l2 n s) n := by
  simp [apply_loop, List.range_succ, List.foldl_append]

theorem sum_of_succ {R : Type} (A : Arith R) (u : Nat → R) (n : Nat) :
    sum_of A u (n + 1) = A.add (sum_of A u n) (u n) := by
  simp [sum_of, List.range_succ, List.foldl_append]

/-- The accumulation loop never writes `W` or `cost`. -/
theorem grad_loop_frame {R : Type} (A : Arith R) (f : R) (l1 l2 : Int) (n : Nat) (s : State R) :
    (grad_loop A f l1 l2 n s).1.W = s.W ∧ (grad_loop A f l1 l2 n s).1.cost = s.cost := by
  induction n with
  | zero => simp [grad_loop]
  | succ n ih => rw [grad_loop_succ]; simpa [grad_body] using ih

/-- The update loop never writes `gradsq`, `cost` or the scratch arrays. -/
theorem apply_loop_frame {R : Type} (A : Arith R) (l1 l2 : Int) (n : Nat) (s : State R) :
    (apply_loop A l1 l2 n s).gradsq = s.gradsq ∧ (apply_loop A l1 l2 n s).cost = s.cost ∧
    (apply_loop A l1 l2 n s).W_updates1 = s.W_updates1 ∧
    (apply_loop A l1 l2 n s).W_updates2 = s.W_updates2 := by
  induction n with
  | zero => simp [apply_loop]
  | succ n ih => rw [apply_loop_succ]; simpa [apply_body] using ih

/-- What the accumulation loop leaves behind when the two rows do not meet:
every entry it visits holds its old value plus the square of the scaled
gradient, every other entry is untouched, the scratch arrays hold the
updates computed from the old `gradsq`, and the sums are their sums. -/
theorem grad_loop_spec {R : Type} (A : Arith R) (f : R) (l1 l2 : Int) (s : State R) (n : Nat)
    (hdis : ∀ b c : Nat, b < n → c < n → (b : Int) + l1 ≠ (c : Int) + l2) :
    (∀ b : Nat, b < n → (grad_loop A f l1 l2 n s).1.gradsq (b + l1)
        = A.add (s.gradsq (b + l1)) (sq_of A (A.mul f (s.W (b + l2))))) ∧
    (∀ b : Nat, b < n → (grad_loop A f l1 l2 n s).1.gradsq (b + l2)
        = A.add (s.gradsq (b + l2)) (sq_of A (A.mul f (s.W (b + l1))))) ∧
    (∀ i : Int, (∀ b : Nat, b < n → i ≠ b + l1 ∧ i ≠ b + l2) →
        (grad_loop A f l1 l2 n s).1.gradsq i = s.gradsq i) ∧
    (∀ b : Nat, b < n → (grad_loop A f l1 l2 n s).1.W_updates1 b
        = u1_of A f s.W s.gradsq l1 l2 b) ∧
    (∀ b : Nat, b < n → (grad_loop A f l1 l2 n s).1.W_updates2 b
        = u2_of A f s.W s.gradsq l1 l2 b) ∧
    (grad_loop A f l1 l2 n s).2.1 = sum_of A (u1_of A f s.W s.gradsq l1 l2) n ∧
    (grad_loop A f l1 l2 n s).2.2 = sum_of A (u2_of A f s.W s.gradsq l1 l2) n := by
  induction n with
  | zero => simp [grad_loop, sum_of]
  | succ n ih =>
    have hdis' : ∀ b c : Nat, b < n → c < n → (b : Int) + l1 ≠ (c : Int) + l2 :=
      fun b c hb hc => hdis b c (Nat.lt_succ_of_lt hb) (Nat.lt_succ_of_lt hc)
    obtain ⟨ih1, ih2, ih3, ih4, ih5, ih6, ih7⟩ := ih hdis'
    have hW := (grad_loop_frame A f l1 l2 n s).1
    have hn12 : (n : Int) + l1 ≠ (n : Int) + l2 := hdis n n (Nat.lt_succ_self n) (Nat.lt_succ_self n)
    have hG1 : (grad_loop A f l1 l2 n s).1.gradsq (n + l1) = s.gradsq (n + l1) := by
      apply ih3
      intro b hb
      refine ⟨?_, ?_⟩
      · intro h; have : (n : Int) = b := by linarith
        exact absurd (Int.ofNat_inj.mp this) (Nat.ne_of_gt hb)
      · exact hdis n b (Nat.lt_succ_self n) (Nat.lt_succ_of_lt hb)
    have hG2 : (grad_loop A f l1 l2 n s).1.gradsq (n + l2) = s.gradsq (n + l2) := by
      apply ih3
      intro b hb
      refine ⟨?_, ?_⟩
      · exact fun h => hdis b n (Nat.lt_succ_of_lt hb) (Nat.lt_succ_self n) h.symm
      · intro h; have : (n : Int) = b := by linarith
        exact absurd (Int.ofNat_inj.mp this) (Nat.ne_of_gt hb)
    rw [grad_loop_succ]
    refine ⟨?_, ?_, ?_, ?_, ?_, ?_, ?_⟩
    · intro b hb
      rcases Nat.lt_succ_iff_lt_or_eq.mp hb with hlt | rfl
      · have e1 : (b : Int) + l1 ≠ (n : Int) + l2 :=
          hdis b n hb (Nat.lt_succ_self n)
        have e2 : (b : Int) + l1 ≠ (n : Int) + l1 := by
          intro h; have : (b : Int) = n := by linarith
          exact absurd (Int.ofNat_inj.mp this) (Nat.ne_of_lt hlt)
        simp [grad_body, Function.update_apply, e1, e2, ih1 b hlt]
      · simp [grad_body, Function.update_apply, hn12, hG1, hW, sq_of]
    · intro b hb
      rcases Nat.lt_succ_iff_lt_or_eq.mp hb with hlt | rfl
      · have e1 : (b : Int) + l2 ≠ (n : Int) + l1 :=
          fun h => hdis n b (Nat.lt_succ_self n) hb h.symm
        have e2 : (b : Int) + l2 ≠ (n : Int) + l2 := by
          intro h; have : (b : Int) = n := by linarith
          exact absurd (Int.ofNat_inj.mp this) (Nat.ne_of_lt hlt)
        simp [grad_body, Function.update_apply, e1, e2, ih2 b hlt]
      · simp [grad_body, Function.update_apply, hn12.symm, hG2, hW, sq_of]
    · intro i hi
      have e1 := (hi n (Nat.lt_succ_self n)).1
      have e2 := (hi n (Nat.lt_succ_self n)).2
      have := ih3 i (fun b hb => hi b (Nat.lt_succ_of_lt hb))
      simp [grad_body, Function.update_apply, e1, e2, this]
    · intro b hb
      rcases Nat.lt_succ_iff_lt_or_eq.mp hb with hlt | rfl
      · have e : (b : Int) ≠ (n : Int) := by
          intro h; exact absurd (Int.ofNat_inj.mp h) (Nat.ne_of_lt hlt)
        simp [grad_body, Function.update_apply, e, ih4 b hlt]
      · simp [grad_body, u1_of, hG1, hW]
    · intro b hb
      rcases Nat.lt_succ_iff_lt_or_eq.mp hb with hlt | rfl
      · have e : (b : Int) ≠ (n : Int) := by
          intro h; exact absurd (Int.ofNat_inj.mp h) (Nat.ne_of_lt hlt)
        simp [grad_body, Function.update_apply, e, ih5 b hlt]
      · simp [grad_body, u2_of, hG2, hW]
    · rw [sum_of_succ]
      simp [grad_body, ih6, u1_of, hG1, hW]
    · rw [sum_of_succ]
      simp [grad_body, ih7, u2_of, hG2, hW]

/-- What the update loop leaves behind when the two rows do not meet: every
component it visits holds its old value minus the stored update, every other
entry of `W` is untouched. -/
theorem apply_loop_spec {R : Type} (A : Arith R) (l1 l2 : Int) (s : State R) (n : Nat)
    (hdis : ∀ b c : Nat, b < n → c < n → (b : Int) + l1 ≠ (c : Int) + l2) :
    (∀ b : Nat, b < n → (apply_loop A l1 l2 n s).W (b + l1)
        = A.sub (s.W (b + l1)) (s.W_updates1 b)) ∧
    (∀ b : Nat, b < n → (apply_loop A l1 l2 n s).W (b + l2)
        = A.sub (s.W (b + l2)) (s.W_updates2 b)) ∧
    (∀ i : Int, (∀ b : Nat, b < n → i ≠ b + l1 ∧ i ≠ b + l2) →
        (apply_loop A l1 l2 n s).W i = s.W i) := by
  induction n with
  | zero => simp [apply_loop]
  | succ n ih =>
    have hdis' : ∀ b c : Nat, b < n → c < n → (b : Int) + l1 ≠ (c : Int) + l2 :=
      fun b c hb hc => hdis b c (Nat.lt_succ_of_lt hb) (Nat.lt_succ_of_lt hc)
    obtain ⟨ih1, ih2, ih3⟩ := ih hdis'
    obtain ⟨-, -, hU1, hU2⟩ := apply_loop_frame A l1 l2 n s
    have hn12 : (n : Int) + l1 ≠ (n : Int) + l2 := hdis n n (Nat.lt_succ_self n) (Nat.lt_succ_self n)
    have hW1 : (apply_loop A l1 l2 n s).W (n + l1) = s.W (n + l1) := by
      apply ih3
      intro b hb
      refine ⟨?_, ?_⟩
      · intro h; have : (n : Int) = b := by linarith
        exact absurd (Int.ofNat_inj.mp this) (Nat.ne_of_gt hb)
      · exact hdis n b (Nat.lt_succ_self n) (Nat.lt_succ_of_lt hb)
    have hW2 : (apply_loop A l1 l2 n s).W (n + l2) = s.W (n + l2) := by
      apply ih3
      intro b hb
      refine ⟨?_, ?_⟩
      · exact fun h => hdis b n (Nat.lt_succ_of_lt hb) (Nat.lt_succ_self n) h.symm
      · intro h; have : (n : Int) = b := by linarith
        exact absurd (Int.ofNat_inj.mp this) (Nat.ne_of_gt hb)
    rw [apply_loop_succ]
    refine ⟨?_, ?_, ?_⟩
    · intro b hb
      rcases Nat.lt_succ_iff_lt_or_eq.mp hb with hlt | rfl
      · have e1 : (b : Int) + l1 ≠ (n : Int) + l2 := hdis b n hb (Nat.lt_succ_self n)
        have e2 : (b : Int) + l1 ≠ (n : Int) + l1 := by
          intro h; have : (b : Int) = n := by linarith
          exact absurd (Int.ofNat_inj.mp this) (Nat.ne_of_lt hlt)
        simp [apply_body, Function.update_apply, e1, e2, ih1 b hlt]
      · simp [apply_body, Function.update_apply, hn12, hW1, hU1]
    · intro b hb
      rcases Nat.lt_succ_iff_lt_or_eq.mp hb with hlt | rfl
      · have e1 : (b : Int) + l2 ≠ (n : Int) + l1 :=
          fun h => hdis n b (Nat.lt_succ_self n) hb h.symm
        have e2 : (b : Int) + l2 ≠ (n : Int) + l2 := by
          intro h; have : (b : Int) = n := by linarith
          exact absurd (Int.ofNat_inj.mp this) (Nat.ne_of_lt hlt)
        simp [apply_body, Function.update_apply, e1, e2, ih2 b hlt]
      · simp [apply_body, Function.update_apply, hn12.symm, hW2, hU2]
    · intro i hi
      have e1 := (hi n (Nat.lt_succ_self n)).1
      have e2 := (hi n (Nat.lt_succ_self n)).2
      have := ih3 i (fun b hb => hi b (Nat.lt_succ_of_lt hb))
      simp [apply_body, Function.update_apply, e1, e2, this]

/-! ## Row addressing -/

/-- For a word id inside the vocabulary and a positive context id, the whole
word row (bias entry included) lies strictly below the context row. -/
theorem rows_apart {R : Type} (g : Globals R) (cr : CREC R)
    (hD : 0 ≤ g.vector_size) (h1 : cr.word1 ≤ g.vocab_size) (h2 : 1 ≤ cr.word2) :
    row_l1 g cr + g.vector_size < row_l2 g cr := by
  unfold row_l1 row_l2
  have hpos : (0 : Int) ≤ g.vector_size + 1 := by linarith
  have e1 : (cr.word1 - 1) * (g.vector_size + 1) ≤ (g.vocab_size - 1) * (g.vector_size + 1) :=
    mul_le_mul_of_nonneg_right (by linarith) hpos
  have e2 : g.vocab_size * (g.vector_size + 1) ≤ (cr.word2 - 1 + g.vocab_size) * (g.vector_size + 1) :=
    mul_le_mul_of_nonneg_right (by linarith) hpos
  nlinarith

/-- Entries of the two rows never share an index. -/
theorem rows_disjoint {R : Type} (g : Globals R) (cr : CREC R)
    (hD : 0 ≤ g.vector_size) (h1 : cr.word1 ≤ g.vocab_size) (h2 : 1 ≤ cr.word2)
    (b c : Int) (hb : b ≤ g.vector_size) (hc0 : 0 ≤ c) :
    b + row_l1 g cr ≠ c + row_l2 g cr := by
  have := rows_apart g cr hD h1 h2
  intro h
  linarith

/-! ## The two halves of a record update -/

/-- The embedding half never writes `cost`. -/
theorem embedding_update_cost {R : Type} (A : Arith R) (f : R) (l1 l2 : Int) (n : Nat)
    (s : State R) : (embedding_update A f l1 l2 n s).cost = s.cost := by
  dsimp only [embedding_update]
  split
  · rw [(apply_loop_frame A l1 l2 n _).2.1]; exact (grad_loop_frame A f l1 l2 n s).2
  · exact (grad_loop_frame A f l1 l2 n s).2

/-- The embedding half leaves in `gradsq` what the accumulation loop left,
whether or not the guard of line 172 lets the update through. -/
theorem embedding_update_gradsq {R : Type} (A : Arith R) (f : R) (l1 l2 : Int) (n : Nat)
    (s : State R) :
    (embedding_update A f l1 l2 n s).gradsq = (grad_loop A f l1 l2 n s).1.gradsq := by
  dsimp only [embedding_update]
  split
  · exact (apply_loop_frame A l1 l2 n _).1
  · rfl

/-- The embedding half when the guard of line 172 fails: `W` is left as it was. -/
theorem embedding_update_discard {R : Type} (A : Arith R) (f : R) (l1 l2 : Int) (n : Nat)
    (s : State R)
    (hbad : sums_ok A (grad_loop A f l1 l2 n s).2.1 (grad_loop A f l1 l2 n s).2.2 = false) :
    (embedding_update A f l1 l2 n s).W = s.W := by
  unfold embedding_update
  simp only [hbad]
  exact (grad_loop_frame A f l1 l2 n s).1

/-- The embedding half when the guard of line 172 holds and the rows do not
meet: every component of both rows has its update, computed from the old
`W` and `gradsq`, subtracted; nothing else in `W` moves. -/
theorem embedding_update_apply {R : Type} (A : Arith R) (f : R) (l1 l2 : Int) (n : Nat)
    (s : State R)
    (hdis : ∀ b c : Nat, b < n → c < n → (b : Int) + l1 ≠ (c : Int) + l2)
    (hok : sums_ok A (grad_loop A f l1 l2 n s).2.1 (grad_loop A f l1 l2 n s).2.2 = true) :
    (∀ b : Nat, b < n → (embedding_update A f l1 l2 n s).W (b + l1)
        = A.sub (s.W (b + l1)) (u1_of A f s.W s.gradsq l1 l2 b)) ∧
    (∀ b : Nat, b < n → (embedding_update A f l1 l2 n s).W (b + l2)
        = A.sub (s.W (b + l2)) (u2_of A f s.W s.gradsq l1 l2 b)) ∧
    (∀ i : Int, (∀ b : Nat, b < n → i ≠ b + l1 ∧ i ≠ b + l2) →
        (embedding_update A f l1 l2 n s).W i = s.W i) := by
  obtain ⟨-, -, -, h4, h5, -, -⟩ := grad_loop_spec A f l1 l2 s n hdis
  obtain ⟨a1, a2, a3⟩ := apply_loop_spec A l1 l2 (grad_loop A f l1 l2 n s).1 n hdis
  have hW := (grad_loop_frame A f l1 l2 n s).1
  unfold embedding_update
  simp only [hok, if_true]
  refine ⟨?_, ?_, ?_⟩
  · intro b hb; rw [a1 b hb, h4 b hb, hW]
  · intro b hb; rw [a2 b hb, h5 b hb, hW]
  · intro i hi; rw [a3 i hi, hW]

/-- The bias half (lines 180-184) when the two bias entries are distinct. -/
theorem bias_update_spec {R : Type} (A : Arith R) (f : R) (l1 l2 D : Int) (s : State R)
    (hne : D + l1 ≠ D + l2) :
    (bias_update A f l1 l2 D s).W (D + l1)
      = A.sub (s.W (D + l1)) (check_nan A (A.div f (A.sqrt (s.gradsq (D + l1))))) ∧
    (bias_update A f l1 l2 D s).W (D + l2)
      = A.sub (s.W (D + l2)) (check_nan A (A.div f (A.sqrt (s.gradsq (D + l2))))) ∧
    (bias_update A f l1 l2 D s).gradsq (D + l1) = A.add (s.gradsq (D + l1)) (A.mul f f) ∧
    (bias_update A f l1 l2 D s).gradsq (D + l2) = A.add (s.gradsq (D + l2)) (A.mul f f) := by
  simp [bias_update, Function.update_apply, hne, hne.symm]

/-- The bias half writes only the two bias entries of `W` and of `gradsq`,
and never `cost`. -/
theorem bias_update_frame {R : Type} (A : Arith R) (f : R) (l1 l2 D : Int) (s : State R) :
    (∀ i : Int, i ≠ D + l1 → i ≠ D + l2 →
      (bias_update A f l1 l2 D s).W i = s.W i ∧
      (bias_update A f l1 l2 D s).gradsq i = s.gradsq i) ∧
    (bias_update A f l1 l2 D s).cost = s.cost := by
  refine ⟨?_, rfl⟩
  intro i h1 h2
  simp [bias_update, Function.update_apply, h1, h2]

/-- The record body on the path that reaches the updates. -/
theorem process_record_update {R : Type} (A : Arith R) (g : Globals R) (id : Int)
    (s : State R) (cr : CREC R) (h1 : 1 ≤ cr.word1) (h2 : 1 ≤ cr.word2)
    (hfin : diff_bad A (diff_of A g s cr) (fdiff_of A g s cr) = false) :
    process_record A g id s cr
      = bias_update A (g_of A g s cr) (row_l1 g cr) (row_l2 g cr) g.vector_size
          (embedding_update A (g_of A g s cr) (row_l1 g cr) (row_l2 g cr) g.vector_size.toNat
            (add_loss A g id s cr)) := by
  have hpos : ¬ (cr.word1 < 1 ∨ cr.word2 < 1) := by
    intro h; rcases h with h | h <;> linarith
  simp only [process_record, hpos, if_false, hfin, g_of, loss_of, add_loss]
  rfl

/-- The record body on the two paths that skip the record. -/
theorem process_record_skip {R : Type} (A : Arith R) (g : Globals R) (id : Int)
    (s : State R) (cr : CREC R)
    (h : (cr.word1 < 1 ∨ cr.word2 < 1) ∨
      diff_bad A (diff_of A g s cr) (fdiff_of A g s cr) = true) :
    process_record A g id s cr = s := by
  unfold process_record
  by_cases hpos : cr.word1 < 1 ∨ cr.word2 < 1
  · simp [hpos]
  · rcases h with h | h
    · exact absurd h hpos
    · simp [hpos, h]

/-- The test of line 149 fails exactly when `diff` and `fdiff` are finite. -/
theorem diff_bad_false_iff {R : Type} (A : Arith R) (d f : R) :
    diff_bad A d f = false ↔ finite A d ∧ finite A f := by
  unfold diff_bad finite
  cases A.isnan d <;> cases A.isnan f <;> cases A.isinf d <;> cases A.isinf f <;> simp

/-- The guard of line 172 holds exactly when both sums are finite. -/
theorem sums_ok_iff {R : Type} (A : Arith R) (x y : R) :
    sums_ok A x y = true ↔ finite A x ∧ finite A y := by
  unfold sums_ok finite
  cases A.isnan x <;> cases A.isnan y <;> cases A.isinf x <;> cases A.isinf y <;> simp

/-- The function `check_nan` passes a finite update through. -/
theorem check_nan_finite {R : Type} (A : Arith R) (x : R) (h : finite A x) :
    check_nan A x = x := by
  unfold check_nan
  simp [h.1, h.2]

/-! ## C1: the update formulas of one record -/

/-- C2. For a record with positive word ids whose `diff` and `fdiff` are
finite, one pass of the record loop raises `cost[id]` by `0.5 * f * diff * diff`
(computed as `(0.5 * (f * diff)) * diff`), where `f * diff` is `diff` when
`val > x_max` and `pow(val / x_max, alpha) * diff` otherwise; no other entry
of `cost` moves, and the resulting `cost` is the same for every learning rate
`eta` put in place of the configured one. -/
theorem C2_record_loss {R : Type} (A : Arith R) (g : Globals R) (id : Int)
    (s : State R) (cr : CREC R) (eta' : R)
    (h1 : 1 ≤ cr.word1) (h2 : 1 ≤ cr.word2)
    (hdiff : finite A (diff_of A g s cr)) (hfdiff : finite A (fdiff_of A g s cr)) :
    (A.gt cr.val g.x_max = true →
      (process_record A g id s cr).cost id
        = A.add (s.cost id) (A.mul (A.mul A.half (diff_of A g s cr)) (diff_of A g s cr))) ∧
    (A.gt cr.val g.x_max = false →
      (process_record A g id s cr).cost id
        = A.add (s.cost id)
            (A.mul (A.mul A.half
              (A.mul (A.pow (A.div cr.val g.x_max) g.alpha) (diff_of A g s cr)))
              (diff_of A g s cr))) ∧
    (∀ j : Int, j ≠ id → (process_record A g id s cr).cost j = s.cost j) ∧
    (process_record A { g with eta := eta' } id s cr).cost = (process_record A g id s cr).cost := by
  have hfin := (diff_bad_false_iff A _ _).mpr ⟨hdiff, hfdiff⟩
  have hfin' : diff_bad A (diff_of A { g with eta := eta' } s cr)
      (fdiff_of A { g with eta := eta' } s cr) = false := hfin
  have hc : (process_record A g id s cr).cost
      = Function.update s.cost id (A.add (s.cost id) (loss_of A g s cr)) := by
    rw [process_record_update A g id s cr h1 h2 hfin,
      (bias_update_frame A _ _ _ _ _).2, embedding_update_cost]
    rfl
  have hc' : (process_record A { g with eta := eta' } id s cr).cost
      = Function.update s.cost id (A.add (s.cost id) (loss_of A g s cr)) := by
    rw [process_record_update A { g with eta := eta' } id s cr h1 h2 hfin',
      (bias_update_frame A _ _ _ _ _).2, embedding_update_cost]
    rfl
  refine ⟨?_, ?_, ?_, ?_⟩
  · intro hgt
    rw [hc]
    simp [loss_of, fdiff_of, hgt]
  · intro hgt
    rw [hc]
    simp [loss_of, fdiff_of, hgt]
  · intro j hj
    rw [hc]
    simp [Function.update_apply, hj]
  · rw [hc, hc']

/-- C2 at the record `(1, 1, 1)` over a buffer of ones (`diff = 3`,
`f = 1/2`, `val ≤ x_max`): the loss rises from `0` to `0.5 * 1.5 * 3 = 9/4`,
also with the learning rate `7` in place of `1/2`. -/
theorem C2_record_loss_witness :
    finite XR.arith (fdiff_of XR.arith ex_globals ex_state ex_record) ∧
    (process_record XR.arith ex_globals 0 ex_state ex_record).cost 0 = XR.fin (9 / 4) ∧
    (process_record XR.arith { ex_globals with eta := XR.fin 7 } 0 ex_state ex_record).cost
      = (process_record XR.arith ex_globals 0 ex_state ex_record).cost := by
  have h := C2_record_loss XR.arith ex_globals 0 ex_state ex_record (XR.fin 7)
    (by decide) (by decide) (by with_unfolding_all decide) (by with_unfolding_all decide)
  exact ⟨by with_unfolding_all decide,
    (h.2.1 (by with_unfolding_all decide)).trans (by with_unfolding_all decide), h.2.2.2⟩

/-! ## C3: malformed records -/

/-- C3. A record with `word1 < 1` or `word2 < 1` leaves `W`, `gradsq` and
`cost` (the whole state) as they were, and it is consumed: the record loop
goes on with the next record of the file and one pass fewer. -/
theorem C3_malformed_skip {R : Type} (A : Arith R) (g : Globals R) (id : Int)
    (s : State R) (cr : CREC R) (rest : List (CREC R)) (n : Nat)
    (h : cr.word1 < 1 ∨ cr.word2 < 1) :
    (process_record A g id s cr).W = s.W ∧
    (process_record A g id s cr).gradsq = s.gradsq ∧
    (process_record A g id s cr).cost = s.cost ∧
    thread_loop A g id (n + 1) (cr :: rest) s = thread_loop A g id n rest s := by
  have hs := process_record_skip A g id s cr (Or.inl h)
  refine ⟨by rw [hs], by rw [hs], by rw [hs], ?_⟩
  simp only [thread_loop, hs]

/-- C3 at the record `(0, 1, 1)` followed by the record `(1, 1, 1)`: two
passes over the two records end in the state one pass over the second
record alone ends in. -/
theorem C3_malformed_skip_witness :
    (ex_record_malformed.word1 < 1 ∨ ex_record_malformed.word2 < 1) ∧
    (process_record XR.arith ex_globals 0 ex_state ex_record_malformed).W = ex_state.W ∧
    (process_record XR.arith ex_globals 0 ex_state ex_record_malformed).gradsq
      = ex_state.gradsq ∧
    (process_record XR.arith ex_globals 0 ex_state ex_record_malformed).cost = ex_state.cost ∧
    thread_loop XR.arith ex_globals 0 2 [ex_record_malformed, ex_record] ex_state
      = thread_loop XR.arith ex_globals 0 1 [ex_record] ex_state :=
  ⟨by decide, C3_malformed_skip XR.arith ex_globals 0 ex_state ex_record_malformed
    [ex_record] 1 (by decide)⟩

/-! ## C4 and C5: records whose residual is NaN or infinite -/

/-- C4. For a record whose `diff` or `fdiff` is NaN or infinite (with
positive word ids, the only records `diff` is computed for), one pass of
the record loop leaves every entry of `W` (so the record's two rows) and
every entry of `cost` as it was. -/
theorem C4_nan_skip {R : Type} (A : Arith R) (g : Globals R) (id : Int)
    (s : State R) (cr : CREC R)
    (hbad : ¬ (finite A (diff_of A g s cr) ∧ finite A (fdiff_of A g s cr))) :
    (∀ i : Int, (process_record A g id s cr).W i = s.W i) ∧
    (∀ j : Int, (process_record A g id s cr).cost j = s.cost j) := by
  have hb : diff_bad A (diff_of A g s cr) (fdiff_of A g s cr) = true := by
    cases h : diff_bad A (diff_of A g s cr) (fdiff_of A g s cr)
    · exact absurd ((diff_bad_false_iff A _ _).mp h) hbad
    · rfl
  have hs := process_record_skip A g id s cr (Or.inr hb)
  exact ⟨fun i => by rw [hs], fun j => by rw [hs]⟩

/-- C4 at the record `(1, 1, 0)`: `diff` is `+inf` (and `fdiff` NaN), the
entries `W[0..3]` and `cost[0]` keep their values. -/
theorem C4_nan_skip_witness :
    diff_of XR.arith ex_globals ex_state ex_record_zero = XR.pinf ∧
    fdiff_of XR.arith ex_globals ex_state ex_record_zero = XR.nan ∧
    (∀ i : Int, (process_record XR.arith ex_globals 0 ex_state ex_record_zero).W i
      = ex_state.W i) ∧
    (∀ j : Int, (process_record XR.arith ex_globals 0 ex_state ex_record_zero).cost j
      = ex_state.cost j) :=
  ⟨by with_unfolding_all decide, by with_unfolding_all decide,
    C4_nan_skip XR.arith ex_globals 0 ex_state ex_record_zero
      (by with_unfolding_all decide)⟩

/-- C5, as amended. For a record whose `diff` or `fdiff` is NaN or infinite
(with positive word ids, the only records `diff` is computed for), one pass
of the record loop leaves every entry of `gradsq` as it was: the `continue`
of line 151 comes before every accumulation, so nothing is added to
`gradsq`. -/
theorem C5_nan_skip_gradsq {R : Type} (A : Arith R) (g : Globals R) (id : Int)
    (s : State R) (cr : CREC R)
    (hbad : ¬ (finite A (diff_of A g s cr) ∧ finite A (fdiff_of A g s cr))) :
    ∀ i : Int, (process_record A g id s cr).gradsq i = s.gradsq i := by
  have hb : diff_bad A (diff_of A g s cr) (fdiff_of A g s cr) = true := by
    cases h : diff_bad A (diff_of A g s cr) (fdiff_of A g s cr)
    · exact absurd ((diff_bad_false_iff A _ _).mp h) hbad
    · rfl
  have hs := process_record_skip A g id s cr (Or.inr hb)
  exact fun i => by rw [hs]

/-- C5 as amended, at the record `(1, 1, 0)`: the four entries of `gradsq`
of the record's rows are still `1`. -/
theorem C5_nan_skip_gradsq_witness :
    ¬ (finite XR.arith (diff_of XR.arith ex_globals ex_state ex_record_zero) ∧
      finite XR.arith (fdiff_of XR.arith ex_globals ex_state ex_record_zero)) ∧
    (process_record XR.arith ex_globals 0 ex_state ex_record_zero).gradsq 0 = XR.fin 1 ∧
    (process_record XR.arith ex_globals 0 ex_state ex_record_zero).gradsq 1 = XR.fin 1 ∧
    (process_record XR.arith ex_globals 0 ex_state ex_record_zero).gradsq 2 = XR.fin 1 ∧
    (process_record XR.arith ex_globals 0 ex_state ex_record_zero).gradsq 3 = XR.fin 1 :=
  ⟨by with_unfolding_all decide,
    C5_nan_skip_gradsq XR.arith ex_globals 0 ex_state ex_record_zero
      (by with_unfolding_all decide) 0,
    C5_nan_skip_gradsq XR.arith ex_globals 0 ex_state ex_record_zero
      (by with_unfolding_all decide) 1,
    C5_nan_skip_gradsq XR.arith ex_globals 0 ex_state ex_record_zero
      (by with_unfolding_all decide) 2,
    C5_nan_skip_gradsq XR.arith ex_globals 0 ex_state ex_record_zero
      (by with_unfolding_all decide) 3⟩

/-- C5 as stated fails at the record `(1, 1, 0)` over a buffer of ones
(`D = V = 1`): the ids are positive and `diff = +inf`, yet the entry
`gradsq[0 + l1]` of the word row is not its old value plus
`(g * W[0 + l2])^2` (that sum is NaN), and the bias entry `gradsq[D + l1]` is
not its old value plus `g * g`: both are still `1`. -/
theorem C5_counterexample :
    (1 ≤ ex_record_zero.word1 ∧ 1 ≤ ex_record_zero.word2) ∧
    XR.arith.isinf (diff_of XR.arith ex_globals ex_state ex_record_zero) = true ∧
    (process_record XR.arith ex_globals 0 ex_state ex_record_zero).gradsq
        (0 + row_l1 ex_globals ex_record_zero)
      ≠ XR.arith.add (ex_state.gradsq (0 + row_l1 ex_globals ex_record_zero))
          (sq_of XR.arith (XR.arith.mul (g_of XR.arith ex_globals ex_state ex_record_zero)
            (ex_state.W (0 + row_l2 ex_globals ex_record_zero)))) ∧
    (process_record XR.arith ex_globals 0 ex_state ex_record_zero).gradsq
        (ex_globals.vector_size + row_l1 ex_globals ex_record_zero)
      ≠ XR.arith.add (ex_state.gradsq (ex_globals.vector_size + row_l1 ex_globals ex_record_zero))
          (sq_of XR.arith (g_of XR.arith ex_globals ex_state ex_record_zero)) ∧
    (process_record XR.arith ex_globals 0 ex_state ex_record_zero).gradsq
        (0 + row_l1 ex_globals ex_record_zero) = XR.fin 1 ∧
    (process_record XR.arith ex_globals 0 ex_state ex_record_zero).gradsq
        (ex_globals.vector_size + row_l1 ex_globals ex_record_zero) = XR.fin 1 := by
  refine ⟨by decide, ?_, ?_, ?_, ?_, ?_⟩ <;> with_unfolding_all decide

/-! ## C7: the discarded embedding update -/

/-- C7. For a record with `1 ≤ word1 ≤ V` and `1 ≤ word2` whose `diff` and
`fdiff` are finite and for which the sum of the `u1[b]` or the sum of the
`u2[b]` over `b < D` is NaN or infinite, one pass of the record loop leaves
all `D` embedding components of both rows of `W` as they were, while
`G[b+l1]` is raised by `(g*W[b+l2])^2` and `G[b+l2]` by `(g*W[b+l1])^2` for
every `b < D`. -/
theorem C7_discarded_update {R : Type} (A : Arith R) (g : Globals R) (id : Int)
    (s : State R) (cr : CREC R)
    (hD : 0 ≤ g.vector_size)
    (h1 : 1 ≤ cr.word1) (h1V : cr.word1 ≤ g.vocab_size) (h2 : 1 ≤ cr.word2)
    (hdiff : finite A (diff_of A g s cr)) (hfdiff : finite A (fdiff_of A g s cr))
    (hsum : ¬ (finite A (sum_of A
        (u1_of A (g_of A g s cr) s.W s.gradsq (row_l1 g cr) (row_l2 g cr)) g.vector_size.toNat) ∧
      finite A (sum_of A
        (u2_of A (g_of A g s cr) s.W s.gradsq (row_l1 g cr) (row_l2 g cr)) g.vector_size.toNat))) :
    ∀ b : Nat, (b : Int) < g.vector_size →
      (process_record A g id s cr).W (b + row_l1 g cr) = s.W (b + row_l1 g cr) ∧
      (process_record A g id s cr).W (b + row_l2 g cr) = s.W (b + row_l2 g cr) ∧
      (process_record A g id s cr).gradsq (b + row_l1 g cr)
        = A.add (s.gradsq (b + row_l1 g cr))
            (sq_of A (A.mul (g_of A g s cr) (s.W (b + row_l2 g cr)))) ∧
      (process_record A g id s cr).gradsq (b + row_l2 g cr)
        = A.add (s.gradsq (b + row_l2 g cr))
            (sq_of A (A.mul (g_of A g s cr) (s.W (b + row_l1 g cr)))) := by
  have hfin := (diff_bad_false_iff A _ _).mpr ⟨hdiff, hfdiff⟩
  rw [process_record_update A g id s cr h1 h2 hfin]
  generalize hs1 : add_loss A g id s cr = s1
  have hW1 : s1.W = s.W := by rw [← hs1]; rfl
  have hG1 : s1.gradsq = s.gradsq := by rw [← hs1]; rfl
  have hdis : ∀ b c : Nat, b < g.vector_size.toNat → c < g.vector_size.toNat →
      (b : Int) + row_l1 g cr ≠ (c : Int) + row_l2 g cr := by
    intro b c hb _
    exact rows_disjoint g cr hD h1V h2 b c (by omega) (by omega)
  obtain ⟨g1, g2, -, -, -, g6, g7⟩ :=
    grad_loop_spec A (g_of A g s cr) (row_l1 g cr) (row_l2 g cr) s1 g.vector_size.toNat hdis
  rw [hW1, hG1] at g6 g7
  have hbad : sums_ok A
      (grad_loop A (g_of A g s cr) (row_l1 g cr) (row_l2 g cr) g.vector_size.toNat s1).2.1
      (grad_loop A (g_of A g s cr) (row_l1 g cr) (row_l2 g cr) g.vector_size.toNat s1).2.2
        = false := by
    rw [g6, g7]
    cases h : sums_ok A _ _
    · rfl
    · exact absurd ((sums_ok_iff A _ _).mp h) hsum
  have eW := embedding_update_discard A (g_of A g s cr) (row_l1 g cr) (row_l2 g cr)
    g.vector_size.toNat s1 hbad
  have eG := embedding_update_gradsq A (g_of A g s cr) (row_l1 g cr) (row_l2 g cr)
    g.vector_size.toNat s1
  obtain ⟨bf, -⟩ := bias_update_frame A (g_of A g s cr) (row_l1 g cr) (row_l2 g cr)
    g.vector_size (embedding_update A (g_of A g s cr) (row_l1 g cr) (row_l2 g cr)
      g.vector_size.toNat s1)
  have hra := rows_apart g cr hD h1V h2
  intro b hb
  have hbn : b < g.vector_size.toNat := by omega
  have n1 : (b : Int) + row_l1 g cr ≠ g.vector_size + row_l1 g cr := by omega
  have n2 : (b : Int) + row_l1 g cr ≠ g.vector_size + row_l2 g cr := by omega
  have n3 : (b : Int) + row_l2 g cr ≠ g.vector_size + row_l1 g cr := by omega
  have n4 : (b : Int) + row_l2 g cr ≠ g.vector_size + row_l2 g cr := by omega
  refine ⟨?_, ?_, ?_, ?_⟩
  · rw [(bf _ n1 n2).1, eW, hW1]
  · rw [(bf _ n3 n4).1, eW, hW1]
  · rw [(bf _ n1 n2).2, eG, g1 b hbn, hW1, hG1]
  · rw [(bf _ n3 n4).2, eG, g2 b hbn, hW1, hG1]

/-- C7 at the record `(1, 1, 1)` over a buffer of ones with an infinite
learning rate: `diff = 3` and `fdiff = 3/2` are finite, `g` and both update
sums are `+inf`; `W[0]` and `W[2]` stay `1`, `gradsq[0]` and `gradsq[2]`
become `1 + inf * inf = +inf`. -/
theorem C7_discarded_update_witness :
    finite XR.arith (diff_of XR.arith ex_globals_inf ex_state ex_record) ∧
    finite XR.arith (fdiff_of XR.arith ex_globals_inf ex_state ex_record) ∧
    sum_of XR.arith (u1_of XR.arith (g_of XR.arith ex_globals_inf ex_state ex_record)
      ex_state.W ex_state.gradsq 0 2) 1 = XR.pinf ∧
    (process_record XR.arith ex_globals_inf 0 ex_state ex_record).W 0 = XR.fin 1 ∧
    (process_record XR.arith ex_globals_inf 0 ex_state ex_record).W 2 = XR.fin 1 ∧
    (process_record XR.arith ex_globals_inf 0 ex_state ex_record).gradsq 0 = XR.pinf ∧
    (process_record XR.arith ex_globals_inf 0 ex_state ex_record).gradsq 2 = XR.pinf := by
  have h := C7_discarded_update XR.arith ex_globals_inf 0 ex_state ex_record
    (by decide) (by decide) (by decide) (by decide)
    (by with_unfolding_all decide) (by with_unfolding_all decide)
    (by with_unfolding_all decide) 0 (by decide)
  obtain ⟨a1, a2, a3, a4⟩ := h
  exact ⟨by with_unfolding_all decide, by with_unfolding_all decide,
    by with_unfolding_all decide,
    a1.trans (by with_unfolding_all decide), a2.trans (by with_unfolding_all decide),
    a3.trans (by with_unfolding_all decide), a4.trans (by with_unfolding_all decide)⟩

/-! ## C6: `gradsq` only has squares added to it -/

theorem sum_lines_succ (arr : Int → Int) (n : Nat) :
    sum_lines arr (n + 1) = sum_lines arr n + arr n := by
  simp [sum_lines, List.range_succ]

theorem fill_loop_succ (q : Int) (arr : Int → Int) (m : Nat) :
    fill_loop q arr (m + 1) = Function.update (fill_loop q arr m) (m : Int) q := by
  simp [fill_loop, List.range_succ, List.foldl_append]

/-- The loop of line 350 run `m` times: the entries below `m` hold the
quotient, every other entry is untouched. -/
theorem fill_loop_spec (q : Int) (arr : Int → Int) (m : Nat) :
    (∀ a : Nat, a < m → fill_loop q arr m a = q) ∧
    (∀ i : Int, (∀ a : Nat, a < m → i ≠ a) → fill_loop q arr m i = arr i) := by
  induction m with
  | zero => simp [fill_loop]
  | succ m ih =>
    obtain ⟨ih1, ih2⟩ := ih
    rw [fill_loop_succ]
    refine ⟨?_, ?_⟩
    · intro a ha
      rcases Nat.lt_succ_iff_lt_or_eq.mp ha with hlt | rfl
      · have e : (a : Int) ≠ (m : Int) := by omega
        simp [Function.update_apply, e, ih1 a hlt]
      · simp
    · intro i hi
      have e : i ≠ (m : Int) := hi m (Nat.lt_succ_self m)
      simp [Function.update_apply, e, ih2 i (fun a ha => hi a (Nat.lt_succ_of_lt ha))]

/-- The array `lines_per_thread` after lines 350-351, for `num_threads ≥ 1`:
the quotient at every index below `num_threads - 1`, the quotient plus the
remainder at index `num_threads - 1`. -/
theorem fill_lines_per_thread_spec (num_lines num_threads : Int) (arr : Int → Int)
    (hT : 1 ≤ num_threads) :
    (∀ a : Nat, (a : Int) < num_threads - 1 →
      fill_lines_per_thread num_lines num_threads arr a = num_lines.tdiv num_threads) ∧
    fill_lines_per_thread num_lines num_threads arr (num_threads - 1)
      = num_lines.tdiv num_threads + num_lines.tmod num_threads := by
  have hm : (((num_threads - 1).toNat : Nat) : Int) = num_threads - 1 :=
    Int.toNat_of_nonneg (by omega)
  obtain ⟨f1, -⟩ := fill_loop_spec (num_lines.tdiv num_threads) arr (num_threads - 1).toNat
  unfold fill_lines_per_thread
  refine ⟨?_, ?_⟩
  · intro a ha
    have e : (a : Int) ≠ ((num_threads - 1).toNat : Int) := by omega
    simp only [Function.update_apply, e, if_false]
    exact f1 a (by omega)
  · show Function.update _ (((num_threads - 1).toNat : Nat) : Int) _ (num_threads - 1) = _
    rw [hm, Function.update_same]

/-- The first `k` entries of `lines_per_thread`, `k < num_threads`, add up
to `k` times the quotient. -/
theorem sum_lines_before (num_lines num_threads : Int) (arr : Int → Int)
    (hT : 1 ≤ num_threads) (k : Nat) (hk : (k : Int) < num_threads) :
    sum_lines (fill_lines_per_thread num_lines num_threads arr) k
      = num_lines.tdiv num_threads * k := by
  obtain ⟨f1, -⟩ := fill_lines_per_thread_spec num_lines num_threads arr hT
  induction k with
  | zero => simp [sum_lines]
  | succ k ih =>
    rw [sum_lines_succ, ih (by omega), f1 k (by omega)]
    push_cast
    ring

/-- The record a worker `id < num_threads` seeks to is the sum of the
record counts of the workers before it. -/
theorem start_record_eq_sum_before (num_lines num_threads id : Int) (arr : Int → Int)
    (hT : 1 ≤ num_threads) (h0 : 0 ≤ id) (hid : id < num_threads) :
    start_record num_lines num_threads id
      = sum_lines (fill_lines_per_thread num_lines num_threads arr) id.toNat := by
  have hi : ((id.toNat : Nat) : Int) = id := Int.toNat_of_nonneg h0
  rw [sum_lines_before num_lines num_threads arr hT id.toNat (by omega), hi]
  rfl

/-- C8. For `totalRecords ≥ 0` and `workerCount ≥ 1`, the array
`lines_per_thread` computed by `train_glove` holds `floor(n / T)` for each of
the first `T - 1` workers and `floor(n / T) + n mod T` for the last, and its
`T` entries add up to exactly `n`. -/
theorem C8_partition_coverage (num_lines num_threads : Int) (arr : Int → Int)
    (h0 : 0 ≤ num_lines) (hT : 1 ≤ num_threads) :
    (∀ a : Nat, (a : Int) < num_threads - 1 →
      fill_lines_per_thread num_lines num_threads arr a = num_lines / num_threads) ∧
    fill_lines_per_thread num_lines num_threads arr (num_threads - 1)
      = num_lines / num_threads + num_lines % num_threads ∧
    sum_lines (fill_lines_per_thread num_lines num_threads arr) num_threads.toNat
      = num_lines := by
  obtain ⟨f1, f2⟩ := fill_lines_per_thread_spec num_lines num_threads arr hT
  have hq : num_lines.tdiv num_threads = num_lines / num_threads :=
    Int.tdiv_eq_ediv h0 (by omega)
  have hr : num_lines.tmod num_threads = num_lines % num_threads :=
    Int.tmod_eq_emod h0 (by omega)
  refine ⟨fun a ha => by rw [f1 a ha, hq], by rw [f2, hq, hr], ?_⟩
  have hn : num_threads.toNat = (num_threads - 1).toNat + 1 := by omega
  have hm : (((num_threads - 1).toNat : Nat) : Int) = num_threads - 1 :=
    Int.toNat_of_nonneg (by omega)
  rw [hn, sum_lines_succ,
    sum_lines_before num_lines num_threads arr hT (num_threads - 1).toNat (by omega), hm, f2]
  have := Int.tmod_add_tdiv num_lines num_threads
  linarith

/-- C8 at 7 records and 3 workers: the counts are 2, 2 and 3, in all 7. -/
theorem C8_partition_coverage_witness :
    (0 : Int) ≤ 7 ∧ (1 : Int) ≤ 3 ∧
    fill_lines_per_thread 7 3 (fun _ => 0) 0 = 2 ∧
    fill_lines_per_thread 7 3 (fun _ => 0) 1 = 2 ∧
    fill_lines_per_thread 7 3 (fun _ => 0) 2 = 3 ∧
    sum_lines (fill_lines_per_thread 7 3 (fun _ => 0)) 3 = 7 := by
  have h := C8_partition_coverage 7 3 (fun _ => 0) (by decide) (by decide)
  exact ⟨by decide, by decide, h.1 0 (by decide), h.1 1 (by decide), h.2.1, h.2.2⟩

/-- C9, as amended. For every `totalRecords`, every `workerCount ≥ 1` and
every worker index `0 ≤ i < workerCount`, the start record of worker `i`,
`(totalRecords / workerCount) * i`, is equal to the sum of
`lines_per_thread[0..i-1]`, also when `totalRecords` is not divisible by
`workerCount`: the remainder goes to the last worker only, after which no
worker starts. -/
theorem C9_start_offsets_exact (num_lines num_threads id : Int) (arr : Int → Int)
    (hT : 1 ≤ num_threads) (h0 : 0 ≤ id) (hid : id < num_threads) :
    start_record num_lines num_threads id
      = sum_lines (fill_lines_per_thread num_lines num_threads arr) id.toNat :=
  start_record_eq_sum_before num_lines num_threads id arr hT h0 hid

/-- C9 as amended, at 7 records and 3 workers: the last worker starts at
record 4, the sum of the counts 2 and 2 of the two workers before it. -/
theorem C9_start_offsets_exact_witness :
    Int.tmod 7 3 ≠ 0 ∧ start_record 7 3 2 = 4 ∧
    sum_lines (fill_lines_per_thread 7 3 (fun _ => 0)) 2 = 4 := by
  have h := C9_start_offsets_exact 7 3 2 (fun _ => 0) (by decide) (by decide) (by decide)
  exact ⟨by decide, by decide, h.symm.trans (by decide)⟩

/-- C9 as stated fails: there are no `totalRecords`, `workerCount ≥ 1` with
`totalRecords mod workerCount ≠ 0` and worker index `0 ≤ i < workerCount`
whose start record differs from the sum of `lines_per_thread[0..i-1]`. -/
theorem C9_counterexample :
    ¬ ∃ (num_lines num_threads id : Int) (arr : Int → Int),
      0 ≤ num_lines ∧ 1 ≤ num_threads ∧ num_lines.tmod num_threads ≠ 0 ∧
      0 ≤ id ∧ id < num_threads ∧
      start_record num_lines num_threads id
        ≠ sum_lines (fill_lines_per_thread num_lines num_threads arr) id.toNat := by
  rintro ⟨n, T, i, arr, -, hT, -, h0, hid, hne⟩
  exact hne (start_record_eq_sum_before n T i arr hT h0 hid)

/-! ## C10: a vocabulary that holds the reserved word -/

/-- A token of at most `MAX_STRING_LENGTH` bytes is read whole. -/
theorem fscanf_s_short (t : List UInt8) (ts : List (List UInt8)) (word : CString)
    (h : t.length ≤ MAX_STRING_LENGTH) : fscanf_s (t :: ts) word = (1, c_string t, ts) := by
  simp [fscanf_s, h]

/-- The number of bytes of a text in UTF-8 is its `utf8ByteSize`. -/
theorem utf8_length (text : String) : (utf8 text).length = text.utf8ByteSize := by
  cases text with
  | mk cs =>
    simp only [utf8, String.utf8ByteSize]
    induction cs with
    | nil => rfl
    | cons c cs ih =>
      simp only [List.flatMap_cons, List.length_append, String.length_utf8EncodeChar,
        String.utf8ByteSize.go, ih]
      omega

/-- A word of a UTF-8 vocabulary file is read whole when it has at most
`MAX_STRING_LENGTH` bytes, whatever its number of code points; of a longer
word the first `MAX_STRING_LENGTH` bytes are stored and the other bytes stay
in the input. -/
theorem fscanf_s_utf8 (text : String) (ts : List (List UInt8)) (word : CString) :
    (text.utf8ByteSize ≤ MAX_STRING_LENGTH →
      fscanf_s (utf8 text :: ts) word = (1, c_string (utf8 text), ts)) ∧
    (MAX_STRING_LENGTH < text.utf8ByteSize →
      fscanf_s (utf8 text :: ts) word
        = (1, c_string ((utf8 text).take MAX_STRING_LENGTH),
            (utf8 text).drop MAX_STRING_LENGTH :: ts)) := by
  refine ⟨?_, ?_⟩
  · intro h
    exact fscanf_s_short _ _ _ (by rw [utf8_length]; exact h)
  · intro h
    rw [← utf8_length] at h
    have hgt : ¬ (utf8 text).length ≤ MAX_STRING_LENGTH := by omega
    simp only [fscanf_s, hgt, if_false]

/-- The vocabulary loop over a vocabulary whose entries `pre` are followed
by a word token `u` that reads `<unk>`, with more passes to make than `pre`
has entries: the loop returns `1` at that word, after it has appended one
line per entry of `pre` to the stream of the main text file. -/
theorem vocab_loop_unk_lines {R : Type} (A : Arith R) (g : Globals R) (sg : SaveGlobals)
    (s : State R) (out gsq : String) (u : List UInt8) (rest : List (List UInt8))
    (hul : u.length ≤ MAX_STRING_LENGTH) (hu : c_string u = "<unk>")
    (pre : List (List UInt8 × List UInt8)) :
    ∀ (n : Nat) (a : Int) (word : CString) (fs : Files R),
      pre.length < n →
      (∀ e ∈ pre, e.1.length ≤ MAX_STRING_LENGTH ∧ e.2.length ≤ MAX_STRING_LENGTH) →
      (∀ e ∈ pre, c_string e.1 ≠ "<unk>") →
      ∃ fs1, vocab_loop A g sg s out gsq n a (vocab_tokens pre ++ u :: rest) word fs
          = LoopEnd.ret 1 fs1 ∧
        ((sg.save_gradsq > 0 → gsq ≠ out) → ∀ c : List (Out R), fs out = some c →
          fs1 out = some (c ++ (entry_lines A g sg s a pre).flatten)) := by
  induction pre with
  | nil =>
    intro n a word fs hn _ _
    obtain ⟨m, rfl⟩ : ∃ m, n = m + 1 := ⟨n - 1, by simp at hn; omega⟩
    have r1 := fscanf_s_short u rest word hul
    refine ⟨fs, ?_, ?_⟩
    · simp [vocab_tokens, vocab_loop, r1, hu]
    · intro _ c hc
      simp [entry_lines, hc]
  | cons e es ih =>
    intro n a word fs hn hlen hno
    obtain ⟨m, rfl⟩ : ∃ m, n = m + 1 := ⟨n - 1, by simp at hn; omega⟩
    obtain ⟨hl1, hl2⟩ := hlen e (List.mem_cons_self e es)
    have hne : c_string e.1 ≠ "<unk>" := hno e (List.mem_cons_self e es)
    have htoks : vocab_tokens (e :: es) ++ u :: rest
        = e.1 :: e.2 :: (vocab_tokens es ++ u :: rest) := by
      simp [vocab_tokens]
    have r1 := fscanf_s_short e.1 (e.2 :: (vocab_tokens es ++ u :: rest)) word hl1
    have r2 := fscanf_s_short e.2 (vocab_tokens es ++ u :: rest) (c_string e.1) hl2
    obtain ⟨fs1, h1, h2⟩ := ih m (a + 1) (c_string e.2)
      (if sg.save_gradsq > 0 then
          fwrite_items (fwrite_items fs out (word_line A g sg s a (c_string e.1))) gsq
            (gradsq_line g s a (c_string e.1))
        else fwrite_items fs out (word_line A g sg s a (c_string e.1)))
      (by simp at hn; omega)
      (fun x hx => hlen x (List.mem_cons_of_mem e hx))
      (fun x hx => hno x (List.mem_cons_of_mem e hx))
    refine ⟨fs1, ?_, ?_⟩
    · simp only [vocab_loop, htoks, r1, r2, hne, if_false]
      simpa using h1
    · intro hgsq c hc
      have hfs2 : (if sg.save_gradsq > 0 then
            fwrite_items (fwrite_items fs out (word_line A g sg s a (c_string e.1))) gsq
              (gradsq_line g s a (c_string e.1))
          else fwrite_items fs out (word_line A g sg s a (c_string e.1))) out
          = some (c ++ word_line A g sg s a (c_string e.1)) := by
        split
        · rename_i h
          have hne2 : out ≠ gsq := fun h2 => hgsq h h2.symm
          simp [fwrite_items, Function.update_apply, hne2, hc]
        · simp [fwrite_items, hc]
      rw [h2 hgsq _ hfs2]
      simp [entry_lines, List.append_assoc]

/-- An early `return` of the binary part returns `1`. -/
theorem save_binary_code {R : Type} (g : Globals R) (sg : SaveGlobals) (s : State R)
    (env : SaveEnv) (fs : Files R) (nb_iter : Int) (r : Int × Files R)
    (h : save_binary g sg s env fs nb_iter = Sum.inl r) : r.1 = 1 := by
  unfold save_binary at h
  split at h
  · split at h
    · cases h; rfl
    · dsimp only at h
      split at h
      · split at h
        · cases h; rfl
        · cases h
      · cases h
  · cases h

/-- The binary part makes no early `return` when every file can be opened. -/
theorem save_binary_writable {R : Type} (g : Globals R) (sg : SaveGlobals) (s : State R)
    (env : SaveEnv) (fs : Files R) (nb_iter : Int) (hw : ∀ p, env.writable p = true) :
    ∃ fs1, save_binary g sg s env fs nb_iter = Sum.inr fs1 := by
  unfold save_binary
  simp only [fopen_wb, hw, if_true]
  split
  · split
    · exact ⟨_, rfl⟩
    · exact ⟨_, rfl⟩
  · exact ⟨_, rfl⟩

/-- The text part, for a vocabulary whose entries `pre`, fewer than the
vocabulary size, are followed by a word token `u` that reads `<unk>`: the
return code is `1`; and when every file can be opened, the stream of the main
text file, whatever the file held before, holds the lines of the entries
`pre` and nothing else. -/
theorem save_text_unk {R : Type} (A : Arith R) (g : Globals R) (sg : SaveGlobals)
    (s : State R) (env : SaveEnv) (fs : Files R) (nb_iter : Int)
    (pre : List (List UInt8 × List UInt8)) (u : List UInt8) (rest : List (List UInt8))
    (htext : sg.use_binary ≠ 1)
    (hvocab : env.vocab = some (vocab_tokens pre ++ u :: rest))
    (hul : u.length ≤ MAX_STRING_LENGTH) (hu : c_string u = "<unk>")
    (hk : (pre.length : Int) < g.vocab_size)
    (hlen : ∀ e ∈ pre, e.1.length ≤ MAX_STRING_LENGTH ∧ e.2.length ≤ MAX_STRING_LENGTH)
    (hno : ∀ e ∈ pre, c_string e.1 ≠ "<unk>") :
    (save_text A g sg s env fs nb_iter).1 = 1 ∧
    ((∀ p, env.writable p = true) →
      (sg.save_gradsq > 0 →
        output_name sg.save_gradsq_file nb_iter "txt"
          ≠ output_name sg.save_W_file nb_iter "txt") →
      (save_text A g sg s env fs nb_iter).2 (output_name sg.save_W_file nb_iter "txt")
        = some (entry_lines A g sg s 0 pre).flatten) := by
  have hkn : pre.length < g.vocab_size.toNat := by omega
  have hloop := fun (fs2 : Files R) =>
    vocab_loop_unk_lines A g sg s (output_name sg.save_W_file nb_iter "txt")
      (output_name sg.save_gradsq_file nb_iter "txt") u rest hul hu pre
      g.vocab_size.toNat 0 (c_string env.word0) fs2 hkn hlen hno
  refine ⟨?_, ?_⟩
  · simp only [save_text, htext, ne_eq, not_false_eq_true, if_true, hvocab]
    split
    · rfl
    · split
      · rfl
      · rename_i fs1 _ fs2 _
        obtain ⟨fs3, h3, -⟩ := hloop fs2
        simp [h3]
  · intro hw hgsq
    simp only [save_text, htext, ne_eq, not_false_eq_true, if_true, hvocab, fopen_wb, hw]
    split
    · rename_i h; split at h <;> cases h
    · rename_i fs1 _
      obtain ⟨fs3, h3, h4⟩ :=
        hloop (Function.update fs1 (output_name sg.save_W_file nb_iter "txt") (some []))
      simp only [h3]
      simpa using h4 hgsq [] (by simp)

/-- A vocabulary in which word token number `k` reads `<unk>` is made of
entries whose words do not read `<unk>`, at most `k` of them, followed by a
word token that reads `<unk>`, the first to do so, and by other tokens. -/
theorem unk_first (k : Nat) : ∀ (toks : List (List UInt8)) (t : List UInt8),
    toks[2 * k]? = some t → c_string t = "<unk>" →
    ∃ (pre : List (List UInt8 × List UInt8)) (u : List UInt8) (rest : List (List UInt8)),
      toks = vocab_tokens pre ++ u :: rest ∧ pre.length ≤ k ∧ c_string u = "<unk>" ∧
      ∀ e ∈ pre, c_string e.1 ≠ "<unk>" := by
  induction k with
  | zero =>
    intro toks t h ht
    cases toks with
    | nil => simp at h
    | cons a tl =>
      simp at h
      subst h
      exact ⟨[], a, tl, by simp [vocab_tokens], le_refl _, ht, by simp⟩
  | succ k ih =>
    intro toks t h ht
    cases toks with
    | nil => simp at h
    | cons a tl =>
      by_cases ha : c_string a = "<unk>"
      · exact ⟨[], a, tl, by simp [vocab_tokens], Nat.zero_le _, ha, by simp⟩
      · cases tl with
        | nil => simp [Nat.mul_succ] at h
        | cons b tl2 =>
          have h2 : tl2[2 * k]? = some t := by simpa [Nat.mul_succ] using h
          obtain ⟨pre, u, rest, e1, e2, e3, e4⟩ := ih tl2 t h2 ht
          refine ⟨(a, b) :: pre, u, rest, ?_, ?_, e3, ?_⟩
          · simp [vocab_tokens, e1]
          · simp only [List.length_cons]; omega
          · intro e he
            rcases List.mem_cons.mp he with rfl | he
            · exact ha
            · exact e4 e he

/-- The tokens of the entries of a vocabulary are tokens of the vocabulary. -/
theorem mem_vocab_tokens (pre : List (List UInt8 × List UInt8)) (e : List UInt8 × List UInt8)
    (he : e ∈ pre) : e.1 ∈ vocab_tokens pre ∧ e.2 ∈ vocab_tokens pre := by
  simp only [vocab_tokens, List.mem_flatMap]
  exact ⟨⟨e, he, by simp⟩, ⟨e, he, by simp⟩⟩

/-- C10, as amended. For a vocabulary file given by the bytes of its tokens,
each token of at most `MAX_STRING_LENGTH` bytes, in which word token number
`k` is the literal `<unk>`, for a `k` below the vocabulary size `V` (one of
the first `V` word tokens is `<unk>`): in text mode (`use_binary != 1`)
`save_params` returns `1`; and when every output file can be opened, the main
text output file has been created or cut to length zero before the
vocabulary was read: whatever it held before the call, after the call its
stream holds the lines of the entries `pre`, those that come before the first
word token `u` that reads `<unk>` (the test of line 257), and nothing else. -/
theorem C10_unk_collision {R : Type} (A : Arith R) (g : Globals R) (sg : SaveGlobals)
    (s : State R) (env : SaveEnv) (fs : Files R) (nb_iter : Int)
    (toks : List (List UInt8)) (k : Nat)
    (htext : sg.use_binary ≠ 1) (hvocab : env.vocab = some toks)
    (hlen : ∀ t ∈ toks, t.length ≤ MAX_STRING_LENGTH)
    (hk : (k : Int) < g.vocab_size) (hunk : toks[2 * k]? = some (utf8 "<unk>")) :
    (save_params A g sg s env fs nb_iter).1 = 1 ∧
    ((∀ p, env.writable p = true) →
      (sg.save_gradsq > 0 →
        output_name sg.save_gradsq_file nb_iter "txt"
          ≠ output_name sg.save_W_file nb_iter "txt") →
      ∃ (pre : List (List UInt8 × List UInt8)) (u : List UInt8) (rest : List (List UInt8)),
        toks = vocab_tokens pre ++ u :: rest ∧ pre.length ≤ k ∧ c_string u = "<unk>" ∧
        (∀ e ∈ pre, c_string e.1 ≠ "<unk>") ∧
        (save_params A g sg s env fs nb_iter).2 (output_name sg.save_W_file nb_iter "txt")
          = some (entry_lines A g sg s 0 pre).flatten) := by
  obtain ⟨pre, u, rest, e1, e2, e3, e4⟩ := unk_first k toks (utf8 "<unk>") hunk rfl
  have hvocab2 : env.vocab = some (vocab_tokens pre ++ u :: rest) := by rw [hvocab, e1]
  have hul : u.length ≤ MAX_STRING_LENGTH := hlen u (by rw [e1]; simp)
  have hk2 : (pre.length : Int) < g.vocab_size := by omega
  have hlen2 : ∀ e ∈ pre,
      e.1.length ≤ MAX_STRING_LENGTH ∧ e.2.length ≤ MAX_STRING_LENGTH := by
    intro e he
    obtain ⟨m1, m2⟩ := mem_vocab_tokens pre e he
    exact ⟨hlen e.1 (by rw [e1]; exact List.mem_append_left _ m1),
      hlen e.2 (by rw [e1]; exact List.mem_append_left _ m2)⟩
  refine ⟨?_, ?_⟩
  · unfold save_params
    cases hb : save_binary g sg s env fs nb_iter with
    | inl r => exact save_binary_code g sg s env fs nb_iter r hb
    | inr fs1 =>
      exact (save_text_unk A g sg s env fs1 nb_iter pre u rest htext hvocab2 hul e3 hk2 hlen2
        e4).1
  · intro hw hgsq
    obtain ⟨fs1, hb⟩ := save_binary_writable g sg s env fs nb_iter hw
    refine ⟨pre, u, rest, e1, e2, e3, e4, ?_⟩
    unfold save_params
    rw [hb]
    exact (save_text_unk A g sg s env fs1 nb_iter pre u rest htext hvocab2 hul e3 hk2 hlen2
      e4).2 hw hgsq

/-- C10 as amended, at the two-word vocabulary `the 10 <unk> 5` in text
mode, every path holding a line `old` before the call: the call returns `1`
and the stream of `vectors.txt` holds the line of the first entry, the line
`old` being lost. -/
theorem C10_unk_collision_witness :
    ex_save.use_binary ≠ 1 ∧
    ex_files_old "vectors.txt" = some [Out.word "old", Out.newline] ∧
    (save_params XR.arith ex_globals_two ex_save ex_state ex_env_unk ex_files_old 0).1 = 1 ∧
    (save_params XR.arith ex_globals_two ex_save ex_state ex_env_unk ex_files_old 0).2
        "vectors.txt"
      = some [Out.word "the", Out.field (XR.fin 2), Out.newline] := by
  have h := C10_unk_collision XR.arith ex_globals_two ex_save ex_state ex_env_unk
    ex_files_old 0 [utf8 "the", utf8 "10", utf8 "<unk>", utf8 "5"] 1 (by decide) rfl
    (by decide) (by decide) (by decide)
  obtain ⟨pre, u, rest, e1, -, e3, e4, e5⟩ :=
    h.2 (fun _ => rfl) (fun h0 => absurd h0 (by decide))
  refine ⟨by decide, rfl, h.1, e5.trans ?_⟩
  cases pre with
  | nil =>
    simp only [vocab_tokens, List.flatMap_nil, List.nil_append, List.cons.injEq] at e1
    rw [← e1.1] at e3
    exact absurd e3 (by decide)
  | cons p pre =>
    cases pre with
    | nil =>
      simp only [vocab_tokens, List.flatMap_cons, List.flatMap_nil, List.append_nil,
        List.cons_append, List.nil_append, List.cons.injEq] at e1
      obtain ⟨p1, p2, -⟩ := e1
      have hp : p = (utf8 "the", utf8 "10") := Prod.ext p1.symm p2.symm
      rw [hp]
      with_unfolding_all decide
    | cons q pre =>
      simp only [vocab_tokens, List.flatMap_cons, List.cons_append, List.nil_append,
        List.cons.injEq] at e1
      obtain ⟨-, -, q1, -⟩ := e1
      have := e4 q (by simp)
      rw [← q1] at this
      exact absurd rfl this

/-- C10 as stated fails at the two-word vocabulary `the 10 <unk> 5` with
the default options (text mode, model 2): the call returns `1`, but
`vectors.txt`, absent before the call, has been created, and when it held a
line before the call that line is lost; and in binary-only mode
(`use_binary = 1`) the same call returns `0` and writes `vectors.bin`. -/
theorem C10_counterexample :
    (save_params XR.arith ex_globals_two ex_save ex_state ex_env_unk (fun _ => none) 0).1 = 1 ∧
    ((save_params XR.arith ex_globals_two ex_save ex_state ex_env_unk (fun _ => none) 0).2
        "vectors.txt").isSome = true ∧
    (save_params XR.arith ex_globals_two ex_save ex_state ex_env_unk ex_files_old 0).2
        "vectors.txt" ≠ ex_files_old "vectors.txt" ∧
    (save_params XR.arith ex_globals_two { ex_save with use_binary := 1 } ex_state ex_env_unk
      (fun _ => none) 0).1 = 0 ∧
    ((save_params XR.arith ex_globals_two { ex_save with use_binary := 1 } ex_state ex_env_unk
      (fun _ => none) 0).2 "vectors.bin").isSome = true := by
  refine ⟨?_, ?_, ?_, ?_, ?_⟩ <;> with_unfolding_all decide

/-! ## C11: a vocabulary file shorter than the vocabulary size -/

/-- C11, the code at a failing input. With `vocab_size = 2`, text mode and
the one-entry vocabulary `the 10`, the token stream is exhausted in the
second pass of the vocabulary loop: `fscanf` returns `EOF` (`-1`), which the
tests `== 0` of lines 255 and 274 let through, so `save_params` returns `0`;
the second line of `vectors.txt` is written under the stale content `10` of
the buffer `word`. -/
theorem C11_short_vocab_returns_zero :
    fscanf_s [] "10" = (-1, "10", []) ∧
    (save_params XR.arith ex_globals_two ex_save ex_state ex_env_short (fun _ => none) 0).1 = 0 ∧
    (save_params XR.arith ex_globals_two ex_save ex_state ex_env_short (fun _ => none) 0).2
        "vectors.txt"
      = some [Out.word "the", Out.field (XR.fin 2), Out.newline,
          Out.word "10", Out.field (XR.fin 2), Out.newline,
          Out.word "<unk>", Out.field (XR.fin 2), Out.newline] := by
  refine ⟨?_, ?_, ?_⟩ <;> with_unfolding_all decide

/-! ## C12 and C13: the lines of the text output -/

/-- The vocabulary loop over a complete vocabulary without the reserved word
runs through all its passes and appends one line per entry to the main text
file. -/
theorem vocab_loop_lines {R : Type} (A : Arith R) (g : Globals R) (sg : SaveGlobals)
    (s : State R) (out gsq : String) (hgsq : sg.save_gradsq > 0 → gsq ≠ out)
    (entries : List (List UInt8 × List UInt8)) :
    ∀ (a : Int) (word : CString) (fs : Files R) (c : List (Out R)),
      (∀ e ∈ entries, e.1.length ≤ MAX_STRING_LENGTH ∧ e.2.length ≤ MAX_STRING_LENGTH) →
      (∀ e ∈ entries, c_string e.1 ≠ "<unk>") →
      fs out = some c →
      ∃ fs1, vocab_loop A g sg s out gsq entries.length a (vocab_tokens entries) word fs
          = LoopEnd.done fs1 ∧
        fs1 out = some (c ++ (entry_lines A g sg s a entries).flatten) := by
  induction entries with
  | nil =>
    intro a word fs c _ _ hc
    exact ⟨fs, by simp [vocab_loop], by simp [entry_lines, hc]⟩
  | cons e es ih =>
    intro a word fs c hlen hno hc
    obtain ⟨hl1, hl2⟩ := hlen e (List.mem_cons_self e es)
    have hne : c_string e.1 ≠ "<unk>" := hno e (List.mem_cons_self e es)
    have htoks : vocab_tokens (e :: es) = e.1 :: e.2 :: vocab_tokens es := by
      simp [vocab_tokens]
    have r1 := fscanf_s_short e.1 (e.2 :: vocab_tokens es) word hl1
    have r2 := fscanf_s_short e.2 (vocab_tokens es) (c_string e.1) hl2
    have hfs2 : (if sg.save_gradsq > 0 then
          fwrite_items (fwrite_items fs out (word_line A g sg s a (c_string e.1))) gsq
            (gradsq_line g s a (c_string e.1))
        else fwrite_items fs out (word_line A g sg s a (c_string e.1))) out
        = some (c ++ word_line A g sg s a (c_string e.1)) := by
      split
      · rename_i h
        have hne2 : out ≠ gsq := fun h2 => hgsq h h2.symm
        simp [fwrite_items, Function.update_apply, hne2, hc]
      · simp [fwrite_items, hc]
    obtain ⟨fs1, h1, h2⟩ := ih (a + 1) (c_string e.2) _ (c ++ word_line A g sg s a (c_string e.1))
      (fun x hx => hlen x (List.mem_cons_of_mem e hx))
      (fun x hx => hno x (List.mem_cons_of_mem e hx)) hfs2
    refine ⟨fs1, ?_, ?_⟩
    · simp only [List.length_cons, vocab_loop, htoks, r1, r2, hne, if_false]
      simpa using h1
    · rw [h2]; simp [entry_lines, List.append_assoc]

/-- The text part over a complete vocabulary without the reserved word,
every token of at most `MAX_STRING_LENGTH` bytes, when every file can be
opened: the return code is `0` and the main text file holds the lines of the
entries followed by the line of the unknown word. -/
theorem save_text_lines {R : Type} (A : Arith R) (g : Globals R) (sg : SaveGlobals)
    (s : State R) (env : SaveEnv) (fs : Files R) (nb_iter : Int)
    (entries : List (List UInt8 × List UInt8))
    (htext : sg.use_binary ≠ 1) (hunk : sg.use_unk_vec ≠ 0)
    (hw : ∀ p, env.writable p = true)
    (hvocab : env.vocab = some (vocab_tokens entries))
    (hV : (entries.length : Int) = g.vocab_size)
    (hlen : ∀ e ∈ entries, e.1.length ≤ MAX_STRING_LENGTH ∧ e.2.length ≤ MAX_STRING_LENGTH)
    (hno : ∀ e ∈ entries, c_string e.1 ≠ "<unk>")
    (hgsq : sg.save_gradsq > 0 →
      output_name sg.save_gradsq_file nb_iter "txt" ≠ output_name sg.save_W_file nb_iter "txt") :
    (save_text A g sg s env fs nb_iter).1 = 0 ∧
    (save_text A g sg s env fs nb_iter).2 (output_name sg.save_W_file nb_iter "txt")
      = some (text_lines A g sg s entries).flatten := by
  have hn : g.vocab_size.toNat = entries.length := by omega
  have key : ∀ fs1 : Files R, ∃ fs3,
      vocab_loop A g sg s (output_name sg.save_W_file nb_iter "txt")
        (output_name sg.save_gradsq_file nb_iter "txt") g.vocab_size.toNat 0
        (vocab_tokens entries) (c_string env.word0)
        (Function.update fs1 (output_name sg.save_W_file nb_iter "txt") (some []))
          = LoopEnd.done fs3 ∧
      fs3 (output_name sg.save_W_file nb_iter "txt")
        = some (entry_lines A g sg s 0 entries).flatten := by
    intro fs1
    rw [hn]
    obtain ⟨fs3, h1, h2⟩ := vocab_loop_lines A g sg s _ _ hgsq entries 0
      (c_string env.word0)
      (Function.update fs1 (output_name sg.save_W_file nb_iter "txt") (some [])) []
      hlen hno (by simp)
    exact ⟨fs3, h1, by simpa using h2⟩
  simp only [save_text, htext, ne_eq, not_false_eq_true, if_true, hvocab, fopen_wb, hw]
  split
  · rename_i h; split at h <;> cases h
  · rename_i fs1 _
    obtain ⟨fs3, h1, h2⟩ := key fs1
    simp only [h1, hunk, not_false_eq_true, if_true]
    refine ⟨trivial, ?_⟩
    simp [fwrite_items, h2, text_lines]

/-- The same for the whole of `save_params`. -/
theorem save_params_lines {R : Type} (A : Arith R) (g : Globals R) (sg : SaveGlobals)
    (s : State R) (env : SaveEnv) (fs : Files R) (nb_iter : Int)
    (entries : List (List UInt8 × List UInt8))
    (htext : sg.use_binary ≠ 1) (hunk : sg.use_unk_vec ≠ 0)
    (hw : ∀ p, env.writable p = true)
    (hvocab : env.vocab = some (vocab_tokens entries))
    (hV : (entries.length : Int) = g.vocab_size)
    (hlen : ∀ e ∈ entries, e.1.length ≤ MAX_STRING_LENGTH ∧ e.2.length ≤ MAX_STRING_LENGTH)
    (hno : ∀ e ∈ entries, c_string e.1 ≠ "<unk>")
    (hgsq : sg.save_gradsq > 0 →
      output_name sg.save_gradsq_file nb_iter "txt" ≠ output_name sg.save_W_file nb_iter "txt") :
    (save_params A g sg s env fs nb_iter).1 = 0 ∧
    (save_params A g sg s env fs nb_iter).2 (output_name sg.save_W_file nb_iter "txt")
      = some (text_lines A g sg s entries).flatten := by
  obtain ⟨fs1, hb⟩ := save_binary_writable g sg s env fs nb_iter hw
  unfold save_params
  rw [hb]
  exact save_text_lines A g sg s env fs1 nb_iter entries htext hunk hw hvocab hV hlen hno hgsq

/-- The fields of a line by output model, written out. -/
theorem model_fields_eq {R : Type} (A : Arith R) (model D : Int) (v c : Int → R) :
    (model = 0 → model_fields A model D v c
      = ((List.range (D + 1).toNat).map (fun (b : Nat) => v b)
          ++ (List.range (D + 1).toNat).map (fun (b : Nat) => c b)).map Out.field) ∧
    (model = 1 → model_fields A model D v c
      = ((List.range D.toNat).map (fun (b : Nat) => v b)).map Out.field) ∧
    (model = 2 → model_fields A model D v c
      = ((List.range D.toNat).map (fun (b : Nat) => A.add (v b) (c b))).map Out.field) := by
  refine ⟨?_, ?_, ?_⟩ <;> intro h <;> subst h <;>
    simp [model_fields, row_fields, Function.comp_def]

/-- The line of the unknown word is the word token `<unk>`, the fields of
the output model taken from the two accumulators, and a newline. -/
theorem unk_line_eq {R : Type} (A : Arith R) (g : Globals R) (sg : SaveGlobals)
    (s : State R) :
    (sg.model = 0 → unk_line A g sg s
      = line_of "<unk>" ((List.range (g.vector_size + 1).toNat).map
            (fun (b : Nat) => (unk_vectors A g s).1 b)
          ++ (List.range (g.vector_size + 1).toNat).map
            (fun (b : Nat) => (unk_vectors A g s).2 b))) ∧
    (sg.model = 1 → unk_line A g sg s
      = line_of "<unk>" ((List.range g.vector_size.toNat).map
            (fun (b : Nat) => (unk_vectors A g s).1 b))) ∧
    (sg.model = 2 → unk_line A g sg s
      = line_of "<unk>" ((List.range g.vector_size.toNat).map
            (fun (b : Nat) => A.add ((unk_vectors A g s).1 b) ((unk_vectors A g s).2 b)))) := by
  obtain ⟨m0, m1, m2⟩ := model_fields_eq A sg.model g.vector_size
    (unk_vectors A g s).1 (unk_vectors A g s).2
  refine ⟨?_, ?_, ?_⟩ <;> intro h
  · simp [unk_line, line_of, m0 h]
  · simp [unk_line, line_of, m1 h]
  · simp [unk_line, line_of, m2 h]

theorem unk_row_eq {R : Type} (A : Arith R) (g : Globals R) (s : State R) (n : Int)
    (acc : (Int → R) × (Int → R)) (a : Int) :
    unk_row A g s n acc a
      = (List.range (g.vector_size + 1).toNat).foldl (unk_body A g s n a) acc := rfl

/-- The inner loop run over `m` components: each of them is raised by the
row's quotient, every other component is untouched. -/
theorem unk_body_fold {R : Type} (A : Arith R) (g : Globals R) (s : State R) (n : Int)
    (acc : (Int → R) × (Int → R)) (a : Int) (m : Nat) :
    (∀ b : Nat, b < m →
      ((List.range m).foldl (unk_body A g s n a) acc).1 b
        = A.add (acc.1 b) (A.div (s.W (a * (g.vector_size + 1) + b)) (A.ofInt n)) ∧
      ((List.range m).foldl (unk_body A g s n a) acc).2 b
        = A.add (acc.2 b)
            (A.div (s.W ((g.vocab_size + a) * (g.vector_size + 1) + b)) (A.ofInt n))) ∧
    (∀ i : Int, (∀ b : Nat, b < m → i ≠ b) →
      ((List.range m).foldl (unk_body A g s n a) acc).1 i = acc.1 i ∧
      ((List.range m).foldl (unk_body A g s n a) acc).2 i = acc.2 i) := by
  induction m with
  | zero => simp
  | succ m ih =>
    obtain ⟨ih1, ih2⟩ := ih
    simp only [List.range_succ, List.foldl_append, List.foldl_cons, List.foldl_nil]
    have hm := ih2 m (fun b hb => by omega)
    refine ⟨?_, ?_⟩
    · intro b hb
      rcases Nat.lt_succ_iff_lt_or_eq.mp hb with hlt | rfl
      · have e : (b : Int) ≠ (m : Int) := by omega
        simp [unk_body, Function.update_apply, e, ih1 b hlt]
      · simp [unk_body, hm.1, hm.2]
    · intro i hi
      have e : i ≠ (m : Int) := hi m (Nat.lt_succ_self m)
      have := ih2 i (fun b hb => hi b (Nat.lt_succ_of_lt hb))
      simp [unk_body, Function.update_apply, e, this.1, this.2]

/-- The outer loop run over `m` rows from row `first` on: each component
`b ≤ D` of the two accumulators is the sum of the `m` quotients. -/
theorem unk_rows_fold {R : Type} (A : Arith R) (g : Globals R) (s : State R) (n first : Int)
    (m : Nat) (b : Nat) (hb : b < (g.vector_size + 1).toNat) :
    ((List.range m).foldl
        (fun (p : (Int → R) × (Int → R)) (k : Nat) => unk_row A g s n p (first + k))
        (fun _ => A.zero, fun _ => A.zero)).1 b
      = sum_of A (fun (k : Nat) =>
          A.div (s.W ((first + k) * (g.vector_size + 1) + b)) (A.ofInt n)) m ∧
    ((List.range m).foldl
        (fun (p : (Int → R) × (Int → R)) (k : Nat) => unk_row A g s n p (first + k))
        (fun _ => A.zero, fun _ => A.zero)).2 b
      = sum_of A (fun (k : Nat) =>
          A.div (s.W ((g.vocab_size + (first + k)) * (g.vector_size + 1) + b)) (A.ofInt n)) m := by
  induction m with
  | zero => simp [sum_of]
  | succ m ih =>
    simp only [List.range_succ, List.foldl_append, List.foldl_cons, List.foldl_nil]
    rw [sum_of_succ, sum_of_succ, unk_row_eq]
    obtain ⟨h1, -⟩ := unk_body_fold A g s n
      ((List.range m).foldl
        (fun (p : (Int → R) × (Int → R)) (k : Nat) => unk_row A g s n p (first + k))
        (fun _ => A.zero, fun _ => A.zero)) (first + m) (g.vector_size + 1).toNat
    rw [(h1 b hb).1, (h1 b hb).2, ih.1, ih.2]
    exact ⟨rfl, rfl⟩

/-- The two accumulators of the unknown word hold, at every component
`b ≤ D`, the mean of the last `min(V, 100)` word rows and of the matching
context rows. -/
theorem unk_vectors_spec {R : Type} (A : Arith R) (g : Globals R) (s : State R)
    (b : Nat) (hb : b < (g.vector_size + 1).toNat) :
    (unk_vectors A g s).1 b = mean_of A g s.W (g.vocab_size - num_rare g) b ∧
    (unk_vectors A g s).2 b
      = mean_of A g s.W (g.vocab_size + (g.vocab_size - num_rare g)) b := by
  obtain ⟨h1, h2⟩ := unk_rows_fold A g s (num_rare g) (g.vocab_size - num_rare g)
    (num_rare g).toNat b hb
  refine ⟨h1, ?_⟩
  have : (unk_vectors A g s).2 b = _ := h2
  rw [this]
  simp only [mean_of, add_assoc]

/-- C13. The line of `<unk>`, which `save_params` writes last in the main
text file (complete vocabulary without the reserved word, given by the bytes
of its tokens, each of at most `MAX_STRING_LENGTH` bytes, every file
openable, text mode, unknown-word line enabled), carries, with
`n = min(V, 100)`: the mean over the rows `a` in `[V - n, V)` of `W[a*(D+1)+b]`
and, separately, of `W[(V+a)*(D+1)+b]`, each mean added up as the quotients
`W[..] / n` from `0` in row order, combined by the rule of the output model:
model 0 both means with the bias component (`b ≤ D`), one after the other;
model 1 the word mean for `b < D`; model 2 the sum of the two means for
`b < D`. -/
theorem C13_unk_line {R : Type} (A : Arith R) (g : Globals R) (sg : SaveGlobals)
    (s : State R) (env : SaveEnv) (fs : Files R) (nb_iter : Int)
    (entries : List (List UInt8 × List UInt8))
    (htext : sg.use_binary ≠ 1) (hunk : sg.use_unk_vec ≠ 0)
    (hw : ∀ p, env.writable p = true)
    (hvocab : env.vocab = some (vocab_tokens entries))
    (hV : (entries.length : Int) = g.vocab_size)
    (hlen : ∀ e ∈ entries, e.1.length ≤ MAX_STRING_LENGTH ∧ e.2.length ≤ MAX_STRING_LENGTH)
    (hno : ∀ e ∈ entries, c_string e.1 ≠ "<unk>")
    (hgsq : sg.save_gradsq > 0 →
      output_name sg.save_gradsq_file nb_iter "txt" ≠ output_name sg.save_W_file nb_iter "txt") :
    (save_params A g sg s env fs nb_iter).2 (output_name sg.save_W_file nb_iter "txt")
      = some ((entry_lines A g sg s 0 entries).flatten
          ++ unk_line A g sg s) ∧
    (sg.model = 0 → unk_line A g sg s
      = line_of "<unk>" ((List.range (g.vector_size + 1).toNat).map
            (fun (b : Nat) => mean_of A g s.W (g.vocab_size - num_rare g) b)
          ++ (List.range (g.vector_size + 1).toNat).map
            (fun (b : Nat) =>
              mean_of A g s.W (g.vocab_size + (g.vocab_size - num_rare g)) b))) ∧
    (sg.model = 1 → unk_line A g sg s
      = line_of "<unk>" ((List.range g.vector_size.toNat).map
            (fun (b : Nat) => mean_of A g s.W (g.vocab_size - num_rare g) b))) ∧
    (sg.model = 2 → unk_line A g sg s
      = line_of "<unk>" ((List.range g.vector_size.toNat).map
            (fun (b : Nat) => A.add (mean_of A g s.W (g.vocab_size - num_rare g) b)
              (mean_of A g s.W (g.vocab_size + (g.vocab_size - num_rare g)) b)))) := by
  obtain ⟨-, c2⟩ := save_params_lines A g sg s env fs nb_iter entries htext hunk hw hvocab hV
    hlen hno hgsq
  obtain ⟨u0, u1, u2⟩ := unk_line_eq A g sg s
  have hv1 : ∀ b ∈ List.range (g.vector_size + 1).toNat,
      (unk_vectors A g s).1 (b : Int) = mean_of A g s.W (g.vocab_size - num_rare g) b :=
    fun b hb => (unk_vectors_spec A g s b (List.mem_range.mp hb)).1
  have hv2 : ∀ b ∈ List.range (g.vector_size + 1).toNat,
      (unk_vectors A g s).2 (b : Int)
        = mean_of A g s.W (g.vocab_size + (g.vocab_size - num_rare g)) b :=
    fun b hb => (unk_vectors_spec A g s b (List.mem_range.mp hb)).2
  have hlt : ∀ b ∈ List.range g.vector_size.toNat, b < (g.vector_size + 1).toNat := by
    intro b hb
    have := List.mem_range.mp hb
    omega
  refine ⟨?_, ?_, ?_, ?_⟩
  · rw [c2]; simp [text_lines]
  · intro h
    rw [u0 h, List.map_congr_left hv1, List.map_congr_left hv2]
  · intro h
    rw [u1 h]
    congr 1
    exact List.map_congr_left (fun b hb => (unk_vectors_spec A g s b (hlt b hb)).1)
  · intro h
    rw [u2 h]
    congr 1
    apply List.map_congr_left
    intro b hb
    rw [(unk_vectors_spec A g s b (hlt b hb)).1, (unk_vectors_spec A g s b (hlt b hb)).2]

/-- C13 at the vocabulary `the 10`, `of 5` with `V = 2`, `D = 1`, output
model 2 and `W[i] = i`: the word mean of component 0 is `0/2 + 2/2 = 1`, the
context mean is `4/2 + 6/2 = 5`, and the line of `<unk>`, the last of
`vectors.txt`, carries their sum `6`. -/
theorem C13_unk_line_witness :
    mean_of XR.arith ex_globals_two ex_state_ramp.W 0 0 = XR.fin 1 ∧
    mean_of XR.arith ex_globals_two ex_state_ramp.W 2 0 = XR.fin 5 ∧
    unk_line XR.arith ex_globals_two ex_save ex_state_ramp
      = [Out.word "<unk>", Out.field (XR.fin 6), Out.newline] ∧
    (save_params XR.arith ex_globals_two ex_save ex_state_ramp ex_env_two
        (fun _ => none) 0).2 "vectors.txt"
      = some [Out.word "the", Out.field (XR.fin 4), Out.newline,
          Out.word "of", Out.field (XR.fin 8), Out.newline,
          Out.word "<unk>", Out.field (XR.fin 6), Out.newline] := by
  have h := C13_unk_line XR.arith ex_globals_two ex_save ex_state_ramp ex_env_two
    (fun _ => none) 0 ex_entries (by decide) (by decide)
    (fun _ => rfl) rfl (by decide) (by decide) (by decide) (fun h => absurd h (by decide))
  exact ⟨by with_unfolding_all decide, by with_unfolding_all decide,
    (h.2.2.2 (by decide)).trans (by with_unfolding_all decide),
    h.1.trans (by with_unfolding_all decide)⟩

/-! ## C15 and C16: `initialize_parameters` -/

/-- An index `a * vs + b` with `0 ≤ b < vs` determines `a` and `b`. -/
theorem grid_index_inj (vs a a' b b' : Int) (hb : 0 ≤ b ∧ b < vs) (hb' : 0 ≤ b' ∧ b' < vs)
    (h : a * vs + b = a' * vs + b') : a = a' ∧ b = b' := by
  have hvs : 0 < vs := by omega
  have e1 : (a * vs + b) % vs = b := by
    rw [add_comm, Int.add_mul_emod_self, Int.emod_eq_of_lt hb.1 hb.2]
  have e2 : (a' * vs + b') % vs = b' := by
    rw [add_comm, Int.add_mul_emod_self, Int.emod_eq_of_lt hb'.1 hb'.2]
  have hbb : b = b' := by rw [← e1, ← e2, h]
  subst hbb
  have : a * vs = a' * vs := by linarith
  exact ⟨mul_right_cancel₀ (ne_of_gt hvs) this, rfl⟩

/-- The inner loop of a fill, run `m` times at component `b`. -/
theorem fill_inner_fold {R : Type} (val : Nat → R) (vs : Int) (hvs : 0 < vs) (b : Nat)
    (acc : (Int → R) × Nat) (m : Nat) :
    ((List.range m).foldl (fill_inner val vs b) acc).2 = acc.2 + m ∧
    (∀ a : Nat, a < m →
      ((List.range m).foldl (fill_inner val vs b) acc).1 (a * vs + b) = val (acc.2 + a)) ∧
    (∀ i : Int, (∀ a : Nat, a < m → i ≠ a * vs + b) →
      ((List.range m).foldl (fill_inner val vs b) acc).1 i = acc.1 i) := by
  induction m with
  | zero => simp
  | succ m ih =>
    obtain ⟨ih1, ih2, ih3⟩ := ih
    simp only [List.range_succ, List.foldl_append, List.foldl_cons, List.foldl_nil]
    refine ⟨?_, ?_, ?_⟩
    · simp [fill_inner, ih1]; omega
    · intro a ha
      rcases Nat.lt_succ_iff_lt_or_eq.mp ha with hlt | rfl
      · have e : (a : Int) * vs + b ≠ (m : Int) * vs + b := by
          intro h
          have : (a : Int) * vs = (m : Int) * vs := by linarith
          have := mul_right_cancel₀ (ne_of_gt hvs) this
          omega
        simp [fill_inner, Function.update_apply, e, ih2 a hlt]
      · simp [fill_inner, ih1]
    · intro i hi
      have e : i ≠ (m : Int) * vs + b := hi m (Nat.lt_succ_self m)
      simp [fill_inner, Function.update_apply, e,
        ih3 i (fun a ha => hi a (Nat.lt_succ_of_lt ha))]

/-- The loop nest of a fill, run over the first `n ≤ vs` components: entry
`a * vs + b` holds the value of assignment number `b * m + a`, every entry
off the grid is untouched. -/
theorem fill_outer_fold {R : Type} (val : Nat → R) (vs : Int) (m : Nat) (buf : Int → R)
    (n : Nat) (hn : (n : Int) ≤ vs) :
    ((List.range n).foldl
      (fun (acc : (Int → R) × Nat) (b : Nat) =>
        (List.range m).foldl (fill_inner val vs b) acc) (buf, 0)).2 = n * m ∧
    (∀ b a : Nat, b < n → a < m →
      ((List.range n).foldl
        (fun (acc : (Int → R) × Nat) (b : Nat) =>
          (List.range m).foldl (fill_inner val vs b) acc) (buf, 0)).1 (a * vs + b)
        = val (b * m + a)) ∧
    (∀ i : Int, (∀ b a : Nat, b < n → a < m → i ≠ a * vs + b) →
      ((List.range n).foldl
        (fun (acc : (Int → R) × Nat) (b : Nat) =>
          (List.range m).foldl (fill_inner val vs b) acc) (buf, 0)).1 i = buf i) := by
  induction n with
  | zero => simp
  | succ n ih =>
    have hvs : 0 < vs := by omega
    obtain ⟨ih1, ih2, ih3⟩ := ih (by omega)
    simp only [List.range_succ, List.foldl_append, List.foldl_cons, List.foldl_nil]
    obtain ⟨f1, f2, f3⟩ := fill_inner_fold val vs hvs n
      ((List.range n).foldl
        (fun (acc : (Int → R) × Nat) (b : Nat) =>
          (List.range m).foldl (fill_inner val vs b) acc) (buf, 0)) m
    refine ⟨?_, ?_, ?_⟩
    · rw [f1, ih1]; ring
    · intro b a hb ha
      rcases Nat.lt_succ_iff_lt_or_eq.mp hb with hlt | rfl
      · rw [f3, ih2 b a hlt ha]
        intro a' _ h
        have := (grid_index_inj vs a a' b n ⟨by omega, by omega⟩ ⟨by omega, by omega⟩ h).2
        omega
      · rw [f2 a ha, ih1]
    · intro i hi
      rw [f3 i (fun a ha => hi n a (Nat.lt_succ_self n) ha),
        ih3 i (fun b a hb ha => hi b a (Nat.lt_succ_of_lt hb) ha)]

/-- A fill over a buffer of `m` rows of `vs` entries: every index `i` of
`[0, m * vs)` holds the value of assignment number `(i mod vs) * m + i / vs`. -/
theorem fill_loops_spec {R : Type} (val : Nat → R) (vs : Int) (m : Nat) (buf : Int → R)
    (hvs : 0 < vs) (i : Int) (h0 : 0 ≤ i) (hi : i < m * vs) :
    (fill_loops val vs m buf).1 i = val ((i % vs).toNat * m + (i / vs).toNat) := by
  have hvn : ((vs.toNat : Nat) : Int) = vs := Int.toNat_of_nonneg (le_of_lt hvs)
  obtain ⟨-, f2, -⟩ := fill_outer_fold val vs m buf vs.toNat (by omega)
  have hb0 : 0 ≤ i % vs := Int.emod_nonneg i (ne_of_gt hvs)
  have hb1 : i % vs < vs := Int.emod_lt_of_pos i hvs
  have ha0 : 0 ≤ i / vs := Int.ediv_nonneg h0 (le_of_lt hvs)
  have ha1 : i / vs < m := Int.ediv_lt_of_lt_mul hvs hi
  have hidx : i = ((i / vs).toNat : Int) * vs + ((i % vs).toNat : Int) := by
    rw [Int.toNat_of_nonneg ha0, Int.toNat_of_nonneg hb0]
    have := Int.ediv_add_emod i vs
    linarith [mul_comm vs (i / vs)]
  have := f2 (i % vs).toNat (i / vs).toNat (by omega) (by omega)
  unfold fill_loops
  rw [← hidx] at this
  exact this

/-- After `initialize_parameters`, every entry of `gradsq` inside the buffer
is `1.0`. -/
theorem init_gradsq_one {R : Type} (A : Arith R) (RAND_MAX : Int) (rand : Nat → Int)
    (g : Globals R) (s : State R) (i : Int) (hD : 0 ≤ g.vector_size) (hV : 0 ≤ g.vocab_size)
    (h0 : 0 ≤ i) (hi : i < 2 * g.vocab_size * (g.vector_size + 1)) :
    (initialize_parameters A RAND_MAX rand g s).2.gradsq i = A.one := by
  have hm : (((2 * g.vocab_size).toNat : Nat) : Int) = 2 * g.vocab_size :=
    Int.toNat_of_nonneg (by omega)
  exact fill_loops_spec (fun _ => A.one) (g.vector_size + 1) (2 * g.vocab_size).toNat s.gradsq
    (by omega) i h0 (by rw [hm]; exact hi)

/-- After `initialize_parameters`, every entry `i` of `W` inside the buffer
holds the draw number `(i mod (D+1)) * 2V + i / (D+1)`, shifted by `0.5` and
divided by the incremented `vector_size`, `D + 1`. -/
theorem init_W_draw {R : Type} (A : Arith R) (RAND_MAX : Int) (rand : Nat → Int)
    (g : Globals R) (s : State R) (i : Int) (hD : 0 ≤ g.vector_size) (hV : 0 ≤ g.vocab_size)
    (h0 : 0 ≤ i) (hi : i < 2 * g.vocab_size * (g.vector_size + 1)) :
    (initialize_parameters A RAND_MAX rand g s).2.W i
      = init_draw A RAND_MAX rand (g.vector_size + 1)
          ((i % (g.vector_size + 1)).toNat * (2 * g.vocab_size).toNat
            + (i / (g.vector_size + 1)).toNat) := by
  have hm : (((2 * g.vocab_size).toNat : Nat) : Int) = 2 * g.vocab_size :=
    Int.toNat_of_nonneg (by omega)
  exact fill_loops_spec (init_draw A RAND_MAX rand (g.vector_size + 1)) (g.vector_size + 1)
    (2 * g.vocab_size).toNat s.W (by omega) i h0 (by rw [hm]; exact hi)

/-- The function `initialize_parameters` leaves `vector_size` as it found it. -/
theorem init_vector_size {R : Type} (A : Arith R) (RAND_MAX : Int) (rand : Nat → Int)
    (g : Globals R) (s : State R) :
    (initialize_parameters A RAND_MAX rand g s).1.vector_size = g.vector_size := by
  simp [initialize_parameters]

/-- A draw in exact arithmetic. -/
theorem init_draw_exact (RAND_MAX : Int) (rand : Nat → Int) (vs : Int) (k : Nat)
    (hRM : 0 < RAND_MAX) (hvs : 0 < vs) :
    init_draw XR.arith RAND_MAX rand vs k
      = XR.fin ((((rand k : Int) : ℚ) / (RAND_MAX : ℚ) - 1 / 2) / (vs : ℚ)) := by
  have h1 : (RAND_MAX : ℚ) ≠ 0 := by exact_mod_cast (ne_of_gt hRM)
  have h2 : (vs : ℚ) ≠ 0 := by exact_mod_cast (ne_of_gt hvs)
  simp [init_draw, XR.arith, XR.div, XR.sub, XR.add, XR.neg, h1, h2, sub_eq_add_neg]

/-- C15. In exact arithmetic, after `initialize_parameters` with vocabulary
size `V ≥ 0` and dimension `D ≥ 1`, for any outputs of the random generator
in `[0, RAND_MAX]` and whatever the buffers held before: at every index `i`
of `[0, 2*V*(D+1))`, `gradsq[i]` is `1.0` and `W[i]` is a finite value between
`-0.5/D` and `0.5/D`; and `vector_size` is `D` again on return. -/
theorem C15_init_coverage (RAND_MAX : Int) (rand : Nat → Int) (g : Globals XR) (s : State XR)
    (i : Int) (hD : 1 ≤ g.vector_size) (hV : 0 ≤ g.vocab_size) (hRM : 0 < RAND_MAX)
    (hrand : ∀ k, 0 ≤ rand k ∧ rand k ≤ RAND_MAX)
    (h0 : 0 ≤ i) (hi : i < 2 * g.vocab_size * (g.vector_size + 1)) :
    (initialize_parameters XR.arith RAND_MAX rand g s).2.gradsq i = XR.fin 1 ∧
    (∃ q : ℚ, (initialize_parameters XR.arith RAND_MAX rand g s).2.W i = XR.fin q ∧
      -(1 / 2) / (g.vector_size : ℚ) ≤ q ∧ q ≤ (1 / 2) / (g.vector_size : ℚ)) ∧
    (initialize_parameters XR.arith RAND_MAX rand g s).1.vector_size = g.vector_size := by
  refine ⟨init_gradsq_one XR.arith RAND_MAX rand g s i (by omega) hV h0 hi, ?_,
    init_vector_size XR.arith RAND_MAX rand g s⟩
  rw [init_W_draw XR.arith RAND_MAX rand g s i (by omega) hV h0 hi,
    init_draw_exact RAND_MAX rand _ _ hRM (by omega)]
  refine ⟨_, rfl, ?_, ?_⟩
  all_goals
    generalize ((i % (g.vector_size + 1)).toNat * (2 * g.vocab_size).toNat
      + (i / (g.vector_size + 1)).toNat) = k
    obtain ⟨r0, r1⟩ := hrand k
    have hRq : (0 : ℚ) < (RAND_MAX : ℚ) := by exact_mod_cast hRM
    have hDq : (1 : ℚ) ≤ (g.vector_size : ℚ) := by exact_mod_cast hD
    have hx0 : (0 : ℚ) ≤ ((rand k : Int) : ℚ) / (RAND_MAX : ℚ) :=
      div_nonneg (by exact_mod_cast r0) (le_of_lt hRq)
    have hx1 : ((rand k : Int) : ℚ) / (RAND_MAX : ℚ) ≤ 1 := by
      rw [div_le_one hRq]; exact_mod_cast r1
    push_cast
  · rw [div_le_div_iff₀ (by linarith) (by linarith)]
    nlinarith
  · rw [div_le_div_iff₀ (by linarith) (by linarith)]
    nlinarith

/-- C15 with `V = 1`, `D = 1` and a generator that returns `0` and
`RAND_MAX` in turn: `gradsq[2]` is `1`, `W[2]` is `(1 - 1/2) / 2 = 1/4`, inside
`[-1/2, 1/2]`, and `vector_size` is `1` on return. -/
theorem C15_init_coverage_witness :
    (initialize_parameters XR.arith ex_RAND_MAX ex_rand_alt ex_globals ex_state).2.gradsq 2
      = XR.fin 1 ∧
    (∃ q : ℚ, (initialize_parameters XR.arith ex_RAND_MAX ex_rand_alt ex_globals
        ex_state).2.W 2 = XR.fin q ∧
      -(1 / 2) / (ex_globals.vector_size : ℚ) ≤ q ∧ q ≤ (1 / 2) / (ex_globals.vector_size : ℚ)) ∧
    (initialize_parameters XR.arith ex_RAND_MAX ex_rand_alt ex_globals ex_state).1.vector_size
      = ex_globals.vector_size ∧
    (initialize_parameters XR.arith ex_RAND_MAX ex_rand_alt ex_globals ex_state).2.W 2
      = XR.fin (1 / 4) := by
  have h := C15_init_coverage ex_RAND_MAX ex_rand_alt ex_globals ex_state 2
    (by decide) (by decide) (by decide)
    (fun k => by unfold ex_rand_alt; split <;> decide) (by decide) (by decide)
  exact ⟨h.1, h.2.1, h.2.2, by with_unfolding_all decide⟩

/-- C16, as amended. After `initialize_parameters`, every entry `i` of
`[0, 2*V*(D+1))` holds `(r / RAND_MAX - 0.5) / (D + 1)`: the divisor is the
temporarily incremented `vector_size`, `D + 1`, and `r` is the output of the
call number `(i mod (D+1)) * 2V + i / (D+1)` of `rand()`. -/
theorem C16_init_scale {R : Type} (A : Arith R) (RAND_MAX : Int) (rand : Nat → Int)
    (g : Globals R) (s : State R) (i : Int) (hD : 0 ≤ g.vector_size) (hV : 0 ≤ g.vocab_size)
    (h0 : 0 ≤ i) (hi : i < 2 * g.vocab_size * (g.vector_size + 1)) :
    (initialize_parameters A RAND_MAX rand g s).2.W i
      = A.div
          (A.sub
            (A.div
              (A.ofInt (rand ((i % (g.vector_size + 1)).toNat * (2 * g.vocab_size).toNat
                + (i / (g.vector_size + 1)).toNat)))
              (A.ofInt RAND_MAX))
            A.half)
          (A.ofInt (g.vector_size + 1)) :=
  init_W_draw A RAND_MAX rand g s i hD hV h0 hi

/-- C16 as amended, with `V = 1`, `D = 1` and the alternating generator:
entry `2` holds draw number `1`, `RAND_MAX`, as `(1 - 1/2) / 2 = 1/4`. -/
theorem C16_init_scale_witness :
    ex_rand_alt ((2 % (ex_globals.vector_size + 1)).toNat * (2 * ex_globals.vocab_size).toNat
      + (2 / (ex_globals.vector_size + 1)).toNat) = ex_RAND_MAX ∧
    (initialize_parameters XR.arith ex_RAND_MAX ex_rand_alt ex_globals ex_state).2.W 2
      = XR.fin (1 / 4) := by
  have h := C16_init_scale XR.arith ex_RAND_MAX ex_rand_alt ex_globals ex_state 2
    (by decide) (by decide) (by decide) (by decide)
  exact ⟨by decide, h.trans (by with_unfolding_all decide)⟩

/-- C16 as stated fails with `V = 1`, `D = 1` and a generator that always
returns `0`: every draw gives `(0 / RAND_MAX - 0.5) / D = -1/2`, but `W[0]`
holds `-1/4`, the same draw divided by `D + 1 = 2`. -/
theorem C16_counterexample :
    (initialize_parameters XR.arith ex_RAND_MAX ex_rand_zero ex_globals ex_state).2.W 0
      = XR.fin (-1 / 4) ∧
    ∀ k : Nat,
      (initialize_parameters XR.arith ex_RAND_MAX ex_rand_zero ex_globals ex_state).2.W 0
        ≠ XR.arith.div
            (XR.arith.sub
              (XR.arith.div (XR.arith.ofInt (ex_rand_zero k)) (XR.arith.ofInt ex_RAND_MAX))
              XR.arith.half)
            (XR.arith.ofInt ex_globals.vector_size) := by
  refine ⟨by with_unfolding_all decide, fun k => ?_⟩
  show (initialize_parameters XR.arith ex_RAND_MAX ex_rand_zero ex_globals ex_state).2.W 0
    ≠ XR.arith.div
        (XR.arith.sub (XR.arith.div (XR.arith.ofInt 0) (XR.arith.ofInt ex_RAND_MAX))
          XR.arith.half)
        (XR.arith.ofInt ex_globals.vector_size)
  with_unfolding_all decide

/-! ## C14: the saves of `train_glove` -/

theorem checkpoints_from_succ (c b : Int) (n : Nat) :
    checkpoints_from c b (n + 1)
      = (if c > 0 ∧ (b + 1) % c = 0 then [b + 1] else []) ++ checkpoints_from c (b + 1) n := by
  unfold checkpoints_from
  rw [List.range_succ_eq_map, List.map_cons, List.map_map, List.filter_cons]
  have hmap : (List.range n).map ((fun (k : Nat) => b + 1 + (k : Int)) ∘ Nat.succ)
      = (List.range n).map (fun (k : Nat) => b + 1 + 1 + (k : Int)) := by
    apply List.map_congr_left
    intro k _
    simp only [Function.comp, Nat.succ_eq_add_one]
    push_cast
    ring
  rw [hmap]
  simp only [Nat.cast_zero, add_zero]
  by_cases h : c > 0 ∧ (b + 1) % c = 0
  · rw [if_pos (decide_eq_true h), if_pos h]; rfl
  · rw [if_neg (by simpa using h), if_neg h]; rfl

theorem checkpoints_from_lower (c b : Int) (n : Nat) (e : Int)
    (h : e ∈ checkpoints_from c b n) : b + 1 ≤ e := by
  unfold checkpoints_from at h
  rw [List.mem_filter, List.mem_map] at h
  obtain ⟨⟨k, -, rfl⟩, -⟩ := h
  omega

/-- The test of line 369 is the test `c > 0` and `e mod c = 0` at `e = b + 1`. -/
theorem checkpoint_test (c b : Int) (hb : 0 ≤ b) :
    (c > 0 ∧ (b + 1).tmod c = 0) ↔ (c > 0 ∧ (b + 1) % c = 0) := by
  constructor
  · rintro ⟨hc, h⟩
    exact ⟨hc, by rw [← Int.tmod_eq_emod (by omega) (by omega)]; exact h⟩
  · rintro ⟨hc, h⟩
    exact ⟨hc, by rw [Int.tmod_eq_emod (by omega) (by omega)]; exact h⟩

/-- The epoch loop when every save it makes returns `0`: the saves are the
checkpoints in increasing order, then the final save. -/
theorem epoch_loop_ok {R : Type} (A : Arith R) (g : Globals R) (sg : SaveGlobals)
    (tg : TrainGlobals) (env : SaveEnv) (epoch : Int → State R → State R) (n : Nat) :
    ∀ (b : Int) (s : State R) (fs : Files R) (saves : List Int), 0 ≤ b →
      (∀ e ∈ checkpoints_from tg.checkpoint_every b n, ∀ (st : State R) (fs1 : Files R),
        (save_params A g sg st env fs1 e).1 = 0) →
      (∀ (st : State R) (fs1 : Files R), (save_params A g sg st env fs1 0).1 = 0) →
      (epoch_loop A g sg tg env epoch n b s fs saves).saves
        = saves ++ checkpoints_from tg.checkpoint_every b n ++ [0] ∧
      (epoch_loop A g sg tg env epoch n b s fs saves).code = 0 ∧
      (epoch_loop A g sg tg env epoch n b s fs saves).epochs = b + n := by
  induction n with
  | zero =>
    intro b s fs saves _ _ h0
    simp [epoch_loop, checkpoints_from, h0]
  | succ n ih =>
    intro b s fs saves hb hcp h0
    rw [checkpoints_from_succ] at hcp ⊢
    by_cases hc : tg.checkpoint_every > 0 ∧ (b + 1) % tg.checkpoint_every = 0
    · have hc' := (checkpoint_test tg.checkpoint_every b hb).mpr hc
      have hz : (save_params A g sg (epoch b s) env fs (b + 1)).1 = 0 :=
        hcp (b + 1) (by simp [hc]) _ _
      obtain ⟨i1, i2, i3⟩ := ih (b + 1) (epoch b s)
        (save_params A g sg (epoch b s) env fs (b + 1)).2 (saves ++ [b + 1]) (by omega)
        (fun e he => hcp e (by simp [he])) h0
      simp only [epoch_loop, hc', hz, if_true, ne_eq, not_true_eq_false, if_false]
      simp only [and_self, if_true, i1, i2, i3, hc]
      refine ⟨by simp, trivial, ?_⟩
      push_cast
      ring
    · have hc' : ¬ (tg.checkpoint_every > 0 ∧ (b + 1).tmod tg.checkpoint_every = 0) :=
        fun h => hc ((checkpoint_test tg.checkpoint_every b hb).mp h)
      obtain ⟨i1, i2, i3⟩ := ih (b + 1) (epoch b s) fs saves (by omega)
        (fun e he => hcp e (by simp [he])) h0
      simp only [epoch_loop, hc', if_false, i1, i2, i3, hc]
      refine ⟨by simp, trivial, ?_⟩
      push_cast
      ring

/-- The epoch loop when the checkpoint save of epoch `e0` is the first to
return a code `r ≠ 0`: the loop returns `r` once epoch `e0` has run, having
made the checkpoint saves up to `e0` and no other. -/
theorem epoch_loop_fail {R : Type} (A : Arith R) (g : Globals R) (sg : SaveGlobals)
    (tg : TrainGlobals) (env : SaveEnv) (epoch : Int → State R → State R) (e0 r : Int)
    (hr : r ≠ 0)
    (hfail : ∀ (st : State R) (fs1 : Files R), (save_params A g sg st env fs1 e0).1 = r)
    (n : Nat) :
    ∀ (b : Int) (s : State R) (fs : Files R) (saves : List Int), 0 ≤ b →
      e0 ∈ checkpoints_from tg.checkpoint_every b n →
      (∀ e ∈ checkpoints_from tg.checkpoint_every b n, e < e0 →
        ∀ (st : State R) (fs1 : Files R), (save_params A g sg st env fs1 e).1 = 0) →
      (epoch_loop A g sg tg env epoch n b s fs saves).code = r ∧
      (epoch_loop A g sg tg env epoch n b s fs saves).saves
        = saves ++ (checkpoints_from tg.checkpoint_every b n).filter (fun e => decide (e ≤ e0)) ∧
      (epoch_loop A g sg tg env epoch n b s fs saves).epochs = e0 := by
  induction n with
  | zero =>
    intro b s fs saves _ hmem _
    simp [checkpoints_from] at hmem
  | succ n ih =>
    intro b s fs saves hb hmem hcp
    rw [checkpoints_from_succ] at hmem hcp ⊢
    by_cases hc : tg.checkpoint_every > 0 ∧ (b + 1) % tg.checkpoint_every = 0
    · have hc' := (checkpoint_test tg.checkpoint_every b hb).mpr hc
      simp only [hc, and_self, if_true, List.mem_append, List.mem_singleton] at hmem hcp
      by_cases he : e0 = b + 1
      · have hz : (save_params A g sg (epoch b s) env fs (b + 1)).1 = r := by
          rw [← he]; exact hfail _ _
        have hnil : (checkpoints_from tg.checkpoint_every (b + 1) n).filter
            (fun e => decide (e ≤ e0)) = [] := by
          rw [List.filter_eq_nil_iff]
          intro e hin
          have := checkpoints_from_lower _ _ _ _ hin
          simp only [decide_eq_true_eq]
          omega
        simp only [epoch_loop, hc', hz, if_true, ne_eq, hr, not_false_eq_true, hc, and_self,
          List.filter_append, hnil, List.append_nil]
        refine ⟨trivial, ?_, he.symm⟩
        simp [he]
      · have hin : e0 ∈ checkpoints_from tg.checkpoint_every (b + 1) n := by
          rcases hmem with h | h
          · exact absurd h he
          · exact h
        have hlow := checkpoints_from_lower _ _ _ _ hin
        have hz : (save_params A g sg (epoch b s) env fs (b + 1)).1 = 0 :=
          hcp (b + 1) (Or.inl rfl) (by omega) _ _
        obtain ⟨i1, i2, i3⟩ := ih (b + 1) (epoch b s)
          (save_params A g sg (epoch b s) env fs (b + 1)).2 (saves ++ [b + 1]) (by omega) hin
          (fun e h1 h2 => hcp e (Or.inr h1) h2)
        simp only [epoch_loop, hc', hz, if_true, ne_eq, not_true_eq_false, if_false, i1, i2, i3,
          hc, and_self, List.filter_append]
        refine ⟨trivial, ?_, trivial⟩
        have : decide (b + 1 ≤ e0) = true := decide_eq_true (by omega)
        simp [List.filter_cons, this]
    · have hc' : ¬ (tg.checkpoint_every > 0 ∧ (b + 1).tmod tg.checkpoint_every = 0) :=
        fun h => hc ((checkpoint_test tg.checkpoint_every b hb).mp h)
      simp only [hc, if_false, List.nil_append] at hmem hcp
      obtain ⟨i1, i2, i3⟩ := ih (b + 1) (epoch b s) fs saves (by omega) hmem hcp
      simp only [epoch_loop, hc', if_false, i1, i2, i3, hc, List.nil_append]
      exact ⟨trivial, trivial, trivial⟩

/-- In binary-only mode without a gradsq file, `save_params` returns `0` when
it can open its output file and `1` when it cannot. -/
theorem save_params_binary_code {R : Type} (A : Arith R) (g : Globals R) (sg : SaveGlobals)
    (s : State R) (env : SaveEnv) (fs : Files R) (e : Int)
    (hb : sg.use_binary = 1) (hg : sg.save_gradsq ≤ 0) :
    (save_params A g sg s env fs e).1
      = if env.writable (output_name sg.save_W_file e "bin") then 0 else 1 := by
  have hg' : ¬ sg.save_gradsq > 0 := by omega
  unfold save_params save_binary save_text fopen_wb
  by_cases hw : env.writable (output_name sg.save_W_file e "bin") = true
  · simp [hb, hg', hw]
  · simp [hb, hw]

/-- The checkpoints are the epochs of `1..N` at which the test of line 369
holds, in increasing order. -/
theorem checkpoints_spec (N c : Int) :
    (∀ e : Int, e ∈ checkpoints N c ↔ (1 ≤ e ∧ e ≤ N ∧ c > 0 ∧ e % c = 0)) ∧
    (checkpoints N c).Pairwise (fun x y => x < y) := by
  refine ⟨?_, ?_⟩
  · intro e
    unfold checkpoints checkpoints_from
    rw [List.mem_filter, List.mem_map]
    simp only [List.mem_range, decide_eq_true_eq]
    constructor
    · rintro ⟨⟨k, hk, rfl⟩, h1, h2⟩
      exact ⟨by omega, by omega, h1, h2⟩
    · rintro ⟨h1, h2, h3, h4⟩
      exact ⟨⟨(e - 1).toNat, by omega, by omega⟩, h3, h4⟩
  · unfold checkpoints checkpoints_from
    apply List.Pairwise.filter
    rw [List.pairwise_map]
    exact List.Pairwise.imp (fun h => by omega) (List.pairwise_lt_range _)

/-- C14. For a co-occurrence file that opens, any iteration count `N`
(`num_iter`, no epoch when `N ≤ 0`), any checkpoint interval `c` and any
effect of the epochs' threads on the memory: the checkpoints are the epochs
`e` of `1..N` with `c > 0` and `e mod c = 0`, in increasing order; when every
save succeeds, the calls of `save_params` made by `train_glove` are exactly
`save_params(e)` for these `e` in that order, each after epoch `e`, then one
final `save_params(0)`, after all `N` epochs, and `train_glove` returns `0`;
and when the checkpoint save of epoch `e0` is the first to return a code
`r ≠ 0`, `train_glove` returns `r` with exactly `e0` epochs run and the
checkpoint saves up to `e0` made, without a final save. -/
theorem C14_persister_calls {R : Type} (A : Arith R) (RAND_MAX : Int) (rand : Nat → Int)
    (g : Globals R) (sg : SaveGlobals) (tg : TrainGlobals) (env : SaveEnv)
    (file : List (CREC R)) (epoch : Globals R → List (CREC R) → Int → State R → State R)
    (s : State R) (fs : Files R) (e0 r : Int) :
    (∀ e : Int, e ∈ checkpoints tg.num_iter tg.checkpoint_every ↔
      (1 ≤ e ∧ e ≤ tg.num_iter ∧ tg.checkpoint_every > 0 ∧ e % tg.checkpoint_every = 0)) ∧
    (checkpoints tg.num_iter tg.checkpoint_every).Pairwise (fun x y => x < y) ∧
    ((∀ e : Int, (e = 0 ∨ e ∈ checkpoints tg.num_iter tg.checkpoint_every) →
        ∀ (st : State R) (fs1 : Files R),
          (save_params A (train_globals A RAND_MAX rand g s file) sg st env fs1 e).1 = 0) →
      (train_glove A RAND_MAX rand g sg tg env (some file) epoch s fs).saves
        = checkpoints tg.num_iter tg.checkpoint_every ++ [0] ∧
      (train_glove A RAND_MAX rand g sg tg env (some file) epoch s fs).code = 0 ∧
      (train_glove A RAND_MAX rand g sg tg env (some file) epoch s fs).epochs
        = tg.num_iter.toNat) ∧
    (e0 ∈ checkpoints tg.num_iter tg.checkpoint_every →
      (∀ e ∈ checkpoints tg.num_iter tg.checkpoint_every, e < e0 →
        ∀ (st : State R) (fs1 : Files R),
          (save_params A (train_globals A RAND_MAX rand g s file) sg st env fs1 e).1 = 0) →
      (∀ (st : State R) (fs1 : Files R),
        (save_params A (train_globals A RAND_MAX rand g s file) sg st env fs1 e0).1 = r) →
      r ≠ 0 →
      (train_glove A RAND_MAX rand g sg tg env (some file) epoch s fs).code = r ∧
      (train_glove A RAND_MAX rand g sg tg env (some file) epoch s fs).saves
        = (checkpoints tg.num_iter tg.checkpoint_every).filter (fun e => decide (e ≤ e0)) ∧
      (train_glove A RAND_MAX rand g sg tg env (some file) epoch s fs).epochs = e0 ∧
      0 ∉ (train_glove A RAND_MAX rand g sg tg env (some file) epoch s fs).saves) := by
  obtain ⟨hmem, hsorted⟩ := checkpoints_spec tg.num_iter tg.checkpoint_every
  refine ⟨hmem, hsorted, ?_, ?_⟩
  · intro hall
    obtain ⟨h1, h2, h3⟩ := epoch_loop_ok A (train_globals A RAND_MAX rand g s file) sg tg env
      (epoch (train_globals A RAND_MAX rand g s file) file) tg.num_iter.toNat 0
      (initialize_parameters A RAND_MAX rand { g with num_lines := file.length } s).2 fs []
      (le_refl 0) (fun e he => hall e (Or.inr he)) (hall 0 (Or.inl rfl))
    refine ⟨?_, h2, ?_⟩
    · simpa [train_glove, checkpoints] using h1
    · simpa [train_glove] using h3
  · intro hin hbefore hfail hr
    obtain ⟨h1, h2, h3⟩ := epoch_loop_fail A (train_globals A RAND_MAX rand g s file) sg tg env
      (epoch (train_globals A RAND_MAX rand g s file) file) e0 r hr hfail tg.num_iter.toNat 0
      (initialize_parameters A RAND_MAX rand { g with num_lines := file.length } s).2 fs []
      (le_refl 0) hin hbefore
    have hs : (train_glove A RAND_MAX rand g sg tg env (some file) epoch s fs).saves
        = (checkpoints tg.num_iter tg.checkpoint_every).filter (fun e => decide (e ≤ e0)) := by
      simpa [train_glove, checkpoints] using h2
    refine ⟨h1, hs, h3, ?_⟩
    rw [hs]
    intro h0
    have := (hmem 0).mp (List.mem_of_mem_filter h0)
    omega

/-- C14 with four epochs and a checkpoint after every epoch, in binary-only
mode: when every file opens the saves are `1, 2, 3, 4` then the final `0`;
when `vectors.002.bin` cannot be opened, `train_glove` returns `1` after two
epochs, the saves being `1, 2`. -/
theorem C14_persister_calls_witness :
    checkpoints ex_train.num_iter ex_train.checkpoint_every = [1, 2, 3, 4] ∧
    ((train_glove XR.arith ex_RAND_MAX ex_rand_alt ex_globals ex_save_binary ex_train
        ex_env_open (some [ex_record])
        (fun g file _ s => epoch_sequential XR.arith (fun _ => 0) g file s)
        ex_state (fun _ => none)).saves = [1, 2, 3, 4, 0] ∧
      (train_glove XR.arith ex_RAND_MAX ex_rand_alt ex_globals ex_save_binary ex_train
        ex_env_open (some [ex_record])
        (fun g file _ s => epoch_sequential XR.arith (fun _ => 0) g file s)
        ex_state (fun _ => none)).code = 0) ∧
    ((train_glove XR.arith ex_RAND_MAX ex_rand_alt ex_globals ex_save_binary ex_train
        ex_env_closed2 (some [ex_record])
        (fun g file _ s => epoch_sequential XR.arith (fun _ => 0) g file s)
        ex_state (fun _ => none)).code = 1 ∧
      (train_glove XR.arith ex_RAND_MAX ex_rand_alt ex_globals ex_save_binary ex_train
        ex_env_closed2 (some [ex_record])
        (fun g file _ s => epoch_sequential XR.arith (fun _ => 0) g file s)
        ex_state (fun _ => none)).saves = [1, 2] ∧
      (train_glove XR.arith ex_RAND_MAX ex_rand_alt ex_globals ex_save_binary ex_train
        ex_env_closed2 (some [ex_record])
        (fun g file _ s => epoch_sequential XR.arith (fun _ => 0) g file s)
        ex_state (fun _ => none)).epochs = 2) := by
  have hcp : checkpoints ex_train.num_iter ex_train.checkpoint_every = [1, 2, 3, 4] := by
    decide
  have hA := (C14_persister_calls XR.arith ex_RAND_MAX ex_rand_alt ex_globals ex_save_binary
    ex_train ex_env_open [ex_record]
    (fun g file _ s => epoch_sequential XR.arith (fun _ => 0) g file s)
    ex_state (fun _ => none) 2 1).2.2.1
    (fun e _ st fs1 => by
      rw [save_params_binary_code _ _ _ _ _ _ _ rfl (by decide)]
      rfl)
  have hB := (C14_persister_calls XR.arith ex_RAND_MAX ex_rand_alt ex_globals ex_save_binary
    ex_train ex_env_closed2 [ex_record]
    (fun g file _ s => epoch_sequential XR.arith (fun _ => 0) g file s)
    ex_state (fun _ => none) 2 1).2.2.2
    (by rw [hcp]; decide)
    (fun e he hlt st fs1 => by
      rw [hcp] at he
      have h1 : e = 1 := by
        simp only [List.mem_cons, List.mem_singleton, List.not_mem_nil, or_false] at he
        omega
      subst h1
      rw [save_params_binary_code _ _ _ _ _ _ _ rfl (by decide)]
      decide)
    (fun st fs1 => by
      rw [save_params_binary_code _ _ _ _ _ _ _ rfl (by decide)]
      decide)
    (by decide)
  refine ⟨hcp, ⟨?_, hA.2.1⟩, hB.1, ?_, hB.2.2.1⟩
  · rw [hA.1, hcp]; rfl
  · rw [hB.2.1, hcp]; decide

/-! ## C17, C18 and C19: the bias terms, row addressing and the frame of a record -/

/-- The embedding half leaves alone every entry of `W` and of `gradsq` that
is not an embedding component of one of the two rows. -/
theorem embedding_update_frame {R : Type} (A : Arith R) (f : R) (l1 l2 : Int) (n : Nat)
    (s : State R)
    (hdis : ∀ b c : Nat, b < n → c < n → (b : Int) + l1 ≠ (c : Int) + l2)
    (i : Int) (hi : ∀ b : Nat, b < n → i ≠ b + l1 ∧ i ≠ b + l2) :
    (embedding_update A f l1 l2 n s).W i = s.W i ∧
    (embedding_update A f l1 l2 n s).gradsq i = s.gradsq i := by
  refine ⟨?_, ?_⟩
  · cases hok : sums_ok A (grad_loop A f l1 l2 n s).2.1 (grad_loop A f l1 l2 n s).2.2
    · rw [embedding_update_discard A f l1 l2 n s hok]
    · exact (embedding_update_apply A f l1 l2 n s hdis hok).2.2 i hi
  · rw [embedding_update_gradsq]
    exact (grad_loop_spec A f l1 l2 s n hdis).2.2.1 i hi

/-- One record with ids in range changes no entry of `W` or `gradsq` outside
the `D + 1` entries of its word row and the `D + 1` entries of its context
row. -/
theorem process_record_frame {R : Type} (A : Arith R) (g : Globals R) (id : Int)
    (s : State R) (cr : CREC R)
    (hD : 0 ≤ g.vector_size) (h1V : cr.word1 ≤ g.vocab_size) (h2 : 1 ≤ cr.word2)
    (i : Int)
    (hout1 : ¬ (row_l1 g cr ≤ i ∧ i ≤ row_l1 g cr + g.vector_size))
    (hout2 : ¬ (row_l2 g cr ≤ i ∧ i ≤ row_l2 g cr + g.vector_size)) :
    (process_record A g id s cr).W i = s.W i ∧
    (process_record A g id s cr).gradsq i = s.gradsq i := by
  by_cases hskip : (cr.word1 < 1 ∨ cr.word2 < 1) ∨
      diff_bad A (diff_of A g s cr) (fdiff_of A g s cr) = true
  · rw [process_record_skip A g id s cr hskip]; exact ⟨rfl, rfl⟩
  · have h1 : 1 ≤ cr.word1 := by
      by_contra h; exact hskip (Or.inl (Or.inl (by omega)))
    have hfin : diff_bad A (diff_of A g s cr) (fdiff_of A g s cr) = false := by
      cases h : diff_bad A (diff_of A g s cr) (fdiff_of A g s cr)
      · rfl
      · exact absurd (Or.inr h) hskip
    have hdis : ∀ b c : Nat, b < g.vector_size.toNat → c < g.vector_size.toNat →
        (b : Int) + row_l1 g cr ≠ (c : Int) + row_l2 g cr := by
      intro b c hb _
      exact rows_disjoint g cr hD h1V h2 b c (by omega) (by omega)
    rw [process_record_update A g id s cr h1 h2 hfin]
    obtain ⟨bf, -⟩ := bias_update_frame A (g_of A g s cr) (row_l1 g cr) (row_l2 g cr)
      g.vector_size (embedding_update A (g_of A g s cr) (row_l1 g cr) (row_l2 g cr)
        g.vector_size.toNat (add_loss A g id s cr))
    obtain ⟨b1, b2⟩ := bf i (by omega) (by omega)
    obtain ⟨e1, e2⟩ := embedding_update_frame A (g_of A g s cr) (row_l1 g cr) (row_l2 g cr)
      g.vector_size.toNat (add_loss A g id s cr) hdis i
      (fun b hb => ⟨by omega, by omega⟩)
    rw [b1, b2, e1, e2]
    exact ⟨rfl, rfl⟩

/-- C17. For a record with `1 ≤ word1 ≤ V`, `1 ≤ word2` and finite `diff`
and `fdiff`, whether or not the embedding update was discarded: for each of
the two rows, with `g = (f * diff) * eta` and `G[row][D]` read before the
record, `W[row][D]` is lowered by `g / sqrt(G[row][D])` when that quotient is
finite; when it is NaN or infinite `0` is subtracted instead, which leaves
`W[row][D]` unchanged as soon as `x - 0 = x`; in both cases `G[row][D]` is
raised by `g * g`.  The function `check_nan` returns its argument when it is
finite and `0` when it is NaN or infinite. -/
theorem C17_bias_update {R : Type} (A : Arith R) (g : Globals R) (id : Int)
    (s : State R) (cr : CREC R)
    (hD : 0 ≤ g.vector_size)
    (h1 : 1 ≤ cr.word1) (h1V : cr.word1 ≤ g.vocab_size) (h2 : 1 ≤ cr.word2)
    (hdiff : finite A (diff_of A g s cr)) (hfdiff : finite A (fdiff_of A g s cr)) :
    (∀ x : R, (finite A x → check_nan A x = x) ∧ (¬ finite A x → check_nan A x = A.zero)) ∧
    (∀ l : Int, l = row_l1 g cr ∨ l = row_l2 g cr →
      (finite A (A.div (g_of A g s cr) (A.sqrt (s.gradsq (g.vector_size + l)))) →
        (process_record A g id s cr).W (g.vector_size + l)
          = A.sub (s.W (g.vector_size + l))
              (A.div (g_of A g s cr) (A.sqrt (s.gradsq (g.vector_size + l))))) ∧
      (¬ finite A (A.div (g_of A g s cr) (A.sqrt (s.gradsq (g.vector_size + l)))) →
        (process_record A g id s cr).W (g.vector_size + l)
            = A.sub (s.W (g.vector_size + l)) A.zero ∧
          ((∀ x : R, A.sub x A.zero = x) →
            (process_record A g id s cr).W (g.vector_size + l) = s.W (g.vector_size + l))) ∧
      (process_record A g id s cr).gradsq (g.vector_size + l)
        = A.add (s.gradsq (g.vector_size + l)) (sq_of A (g_of A g s cr))) := by
  have hcheck : ∀ x : R,
      (finite A x → check_nan A x = x) ∧ (¬ finite A x → check_nan A x = A.zero) := by
    intro x
    refine ⟨check_nan_finite A x, ?_⟩
    intro h
    unfold check_nan finite at *
    cases h1 : A.isnan x <;> cases h2 : A.isinf x <;> simp_all
  refine ⟨hcheck, ?_⟩
  have hfin := (diff_bad_false_iff A _ _).mpr ⟨hdiff, hfdiff⟩
  have hdis : ∀ b c : Nat, b < g.vector_size.toNat → c < g.vector_size.toNat →
      (b : Int) + row_l1 g cr ≠ (c : Int) + row_l2 g cr := by
    intro b c hb _
    exact rows_disjoint g cr hD h1V h2 b c (by omega) (by omega)
  have hra := rows_apart g cr hD h1V h2
  have hne : g.vector_size + row_l1 g cr ≠ g.vector_size + row_l2 g cr := by omega
  obtain ⟨b1, b2, b3, b4⟩ := bias_update_spec A (g_of A g s cr) (row_l1 g cr) (row_l2 g cr)
    g.vector_size (embedding_update A (g_of A g s cr) (row_l1 g cr) (row_l2 g cr)
      g.vector_size.toNat (add_loss A g id s cr)) hne
  have ef : ∀ l : Int, l = row_l1 g cr ∨ l = row_l2 g cr →
      (embedding_update A (g_of A g s cr) (row_l1 g cr) (row_l2 g cr)
        g.vector_size.toNat (add_loss A g id s cr)).W (g.vector_size + l)
          = s.W (g.vector_size + l) ∧
      (embedding_update A (g_of A g s cr) (row_l1 g cr) (row_l2 g cr)
        g.vector_size.toNat (add_loss A g id s cr)).gradsq (g.vector_size + l)
          = s.gradsq (g.vector_size + l) := by
    intro l hl
    have := embedding_update_frame A (g_of A g s cr) (row_l1 g cr) (row_l2 g cr)
      g.vector_size.toNat (add_loss A g id s cr) hdis (g.vector_size + l)
      (fun b hb => by rcases hl with rfl | rfl <;> constructor <;> omega)
    exact this
  intro l hl
  rw [process_record_update A g id s cr h1 h2 hfin]
  obtain ⟨eW, eG⟩ := ef l hl
  rcases hl with rfl | rfl
  · rw [b1, b3, eW, eG]
    refine ⟨fun h => by rw [(hcheck _).1 h], fun h => ?_, rfl⟩
    rw [(hcheck _).2 h]
    exact ⟨rfl, fun h0 => h0 _⟩
  · rw [b2, b4, eW, eG]
    refine ⟨fun h => by rw [(hcheck _).1 h], fun h => ?_, rfl⟩
    rw [(hcheck _).2 h]
    exact ⟨rfl, fun h0 => h0 _⟩

/-- C17 at the record `(1, 1, 1)` over a buffer of ones: with `eta = 1/2` the
bias update `3/4` is finite and `W[1]` drops to `1/4`, `gradsq[1]` rises to
`25/16`; with an infinite `eta` the bias update is infinite, `W[1]` stays `1`
and `gradsq[1]` becomes `+inf`. -/
theorem C17_bias_update_witness :
    check_nan XR.arith XR.pinf = XR.fin 0 ∧
    (process_record XR.arith ex_globals 0 ex_state ex_record).W 1 = XR.fin (1 / 4) ∧
    (process_record XR.arith ex_globals 0 ex_state ex_record).gradsq 1 = XR.fin (25 / 16) ∧
    (process_record XR.arith ex_globals_inf 0 ex_state ex_record).W 1 = XR.fin 1 ∧
    (process_record XR.arith ex_globals_inf 0 ex_state ex_record).gradsq 1 = XR.pinf := by
  have hsub : ∀ x : XR, XR.arith.sub x XR.arith.zero = x := by
    intro x
    cases x <;> simp [XR.arith, XR.sub, XR.add, XR.neg]
  have hA := (C17_bias_update XR.arith ex_globals 0 ex_state ex_record
    (by decide) (by decide) (by decide) (by decide)
    (by with_unfolding_all decide) (by with_unfolding_all decide)).2 0 (Or.inl rfl)
  have hB := (C17_bias_update XR.arith ex_globals_inf 0 ex_state ex_record
    (by decide) (by decide) (by decide) (by decide)
    (by with_unfolding_all decide) (by with_unfolding_all decide)).2 0 (Or.inl rfl)
  exact ⟨by with_unfolding_all decide,
    (hA.1 (by with_unfolding_all decide)).trans (by with_unfolding_all decide),
    hA.2.2.trans (by with_unfolding_all decide),
    ((hB.2.1 (by with_unfolding_all decide)).2 hsub).trans (by with_unfolding_all decide),
    hB.2.2.trans (by with_unfolding_all decide)⟩

/-- The bounds of the two rows of a record with ids in `1..V`. -/
theorem row_bounds {R : Type} (g : Globals R) (cr : CREC R)
    (hD : 0 ≤ g.vector_size) (h1 : 1 ≤ cr.word1) (h1V : cr.word1 ≤ g.vocab_size)
    (h2 : 1 ≤ cr.word2) (h2V : cr.word2 ≤ g.vocab_size) :
    0 ≤ row_l1 g cr ∧ row_l1 g cr + g.vector_size < g.vocab_size * (g.vector_size + 1) ∧
    g.vocab_size * (g.vector_size + 1) ≤ row_l2 g cr ∧
    row_l2 g cr + g.vector_size < 2 * g.vocab_size * (g.vector_size + 1) := by
  unfold row_l1 row_l2
  have hpos : (0 : Int) ≤ g.vector_size + 1 := by linarith
  have e0 : 0 ≤ (cr.word1 - 1) * (g.vector_size + 1) := mul_nonneg (by linarith) hpos
  have e1 : (cr.word1 - 1) * (g.vector_size + 1) ≤ (g.vocab_size - 1) * (g.vector_size + 1) :=
    mul_le_mul_of_nonneg_right (by linarith) hpos
  have e2 : g.vocab_size * (g.vector_size + 1)
      ≤ (cr.word2 - 1 + g.vocab_size) * (g.vector_size + 1) :=
    mul_le_mul_of_nonneg_right (by linarith) hpos
  have e3 : (cr.word2 - 1 + g.vocab_size) * (g.vector_size + 1)
      ≤ (2 * g.vocab_size - 1) * (g.vector_size + 1) :=
    mul_le_mul_of_nonneg_right (by linarith) hpos
  refine ⟨e0, ?_, e2, ?_⟩ <;> nlinarith

/-- C18. For `V ≥ 1`, `D ≥ 0` and a record with `1 ≤ word1 ≤ V` and
`1 ≤ word2 ≤ V`, the offsets `l1 = (word1-1)*(D+1)` and
`l2 = (word2-1+V)*(D+1)` satisfy `0 ≤ l1+b < V*(D+1) ≤ l2+b < 2*V*(D+1)` for
every `b` in `0..D`; id `k` addresses word row `k - 1` and context row
`V + k - 1`, distinct ids address distinct rows, an entry `l1 + b` of the word
row is never an entry `l2 + c`, `c ≥ 0`, of the context row, and every index
at which the record
changes `W` or `gradsq` lies inside the buffer of length `2*V*(D+1)`. -/
theorem C18_row_addressing {R : Type} (A : Arith R) (g : Globals R) (id : Int)
    (s : State R) (cr cr2 : CREC R) (b c i : Int)
    (hD : 0 ≤ g.vector_size) (h1 : 1 ≤ cr.word1) (h1V : cr.word1 ≤ g.vocab_size)
    (h2 : 1 ≤ cr.word2) (h2V : cr.word2 ≤ g.vocab_size)
    (hb0 : 0 ≤ b) (hb : b ≤ g.vector_size) (hc0 : 0 ≤ c) :
    (0 ≤ row_l1 g cr + b ∧ row_l1 g cr + b < g.vocab_size * (g.vector_size + 1) ∧
      g.vocab_size * (g.vector_size + 1) ≤ row_l2 g cr + b ∧
      row_l2 g cr + b < 2 * g.vocab_size * (g.vector_size + 1)) ∧
    (row_l1 g cr = (cr.word1 - 1) * (g.vector_size + 1) ∧
      row_l2 g cr = (g.vocab_size + (cr.word2 - 1)) * (g.vector_size + 1)) ∧
    ((row_l1 g cr2 = row_l1 g cr → cr2.word1 = cr.word1) ∧
      (row_l2 g cr2 = row_l2 g cr → cr2.word2 = cr.word2)) ∧
    row_l1 g cr + b ≠ row_l2 g cr + c ∧
    (((process_record A g id s cr).W i ≠ s.W i ∨
        (process_record A g id s cr).gradsq i ≠ s.gradsq i) →
      0 ≤ i ∧ i < 2 * g.vocab_size * (g.vector_size + 1)) := by
  obtain ⟨r1, r2, r3, r4⟩ := row_bounds g cr hD h1 h1V h2 h2V
  have hpos : g.vector_size + 1 ≠ 0 := by omega
  refine ⟨⟨by omega, by omega, by omega, by omega⟩, ⟨rfl, ?_⟩, ⟨?_, ?_⟩, by omega, ?_⟩
  · unfold row_l2; ring
  · intro h
    unfold row_l1 at h
    have := mul_right_cancel₀ hpos h
    omega
  · intro h
    unfold row_l2 at h
    have := mul_right_cancel₀ hpos h
    omega
  · intro hchg
    by_contra hout
    have hV : 0 ≤ g.vocab_size * (g.vector_size + 1) := by omega
    obtain ⟨f1, f2⟩ := process_record_frame A g id s cr hD h1V h2 i (by omega) (by omega)
    rcases hchg with h | h
    · exact h f1
    · exact h f2

/-- C18 with `V = 2`, `D = 1` at the record `(1, 2, 1)`: the word row is at
`l1 = 0`, the context row at `l2 = 6`, and `0 ≤ 0 + 1 < 4 ≤ 6 + 1 < 8`. -/
theorem C18_row_addressing_witness :
    row_l1 ex_globals_two ex_record_12 = 0 ∧ row_l2 ex_globals_two ex_record_12 = 6 ∧
    (0 ≤ row_l1 ex_globals_two ex_record_12 + 1 ∧
      row_l1 ex_globals_two ex_record_12 + 1
        < ex_globals_two.vocab_size * (ex_globals_two.vector_size + 1) ∧
      ex_globals_two.vocab_size * (ex_globals_two.vector_size + 1)
        ≤ row_l2 ex_globals_two ex_record_12 + 1 ∧
      row_l2 ex_globals_two ex_record_12 + 1
        < 2 * ex_globals_two.vocab_size * (ex_globals_two.vector_size + 1)) ∧
    row_l1 ex_globals_two ex_record_12 + 1 ≠ row_l2 ex_globals_two ex_record_12 + 0 := by
  have h := C18_row_addressing XR.arith ex_globals_two 0 ex_state ex_record_12 ex_record 1 0 0
    (by decide) (by decide) (by decide) (by decide) (by decide) (by decide) (by decide)
    (by decide)
  exact ⟨by decide, by decide, h.1, h.2.2.2.1⟩

/-- C19. For a record with `1 ≤ word1 ≤ V` and `1 ≤ word2` (so also for
`word2 ≤ V`), one pass of the record loop, through any of its paths, changes
no entry of `W` and no entry of `gradsq` outside the indices `l1..l1+D` of
the word row and `l2..l2+D` of the context row. -/
theorem C19_record_frame {R : Type} (A : Arith R) (g : Globals R) (id : Int)
    (s : State R) (cr : CREC R) (i : Int)
    (hD : 0 ≤ g.vector_size) (h1V : cr.word1 ≤ g.vocab_size) (h2 : 1 ≤ cr.word2)
    (hout1 : ¬ (row_l1 g cr ≤ i ∧ i ≤ row_l1 g cr + g.vector_size))
    (hout2 : ¬ (row_l2 g cr ≤ i ∧ i ≤ row_l2 g cr + g.vector_size)) :
    (process_record A g id s cr).W i = s.W i ∧
    (process_record A g id s cr).gradsq i = s.gradsq i :=
  process_record_frame A g id s cr hD h1V h2 i hout1 hout2

/-- C19 with `V = 2`, `D = 1` at the record `(1, 1, 1)` over a buffer of
ones: the rows of the record are the indices `0..1` and `4..5`; the entries
`2` and `7`, of the other word row and the other context row, keep the value
`1` in `W` and in `gradsq`, while `W[0]` changes. -/
theorem C19_record_frame_witness :
    row_l1 ex_globals_two ex_record = 0 ∧ row_l2 ex_globals_two ex_record = 4 ∧
    (process_record XR.arith ex_globals_two 0 ex_state ex_record).W 2 = XR.fin 1 ∧
    (process_record XR.arith ex_globals_two 0 ex_state ex_record).gradsq 2 = XR.fin 1 ∧
    (process_record XR.arith ex_globals_two 0 ex_state ex_record).W 7 = XR.fin 1 ∧
    (process_record XR.arith ex_globals_two 0 ex_state ex_record).gradsq 7 = XR.fin 1 ∧
    (process_record XR.arith ex_globals_two 0 ex_state ex_record).W 0 ≠ ex_state.W 0 := by
  have h2 := C19_record_frame XR.arith ex_globals_two 0 ex_state ex_record 2
    (by decide) (by decide) (by decide) (by decide) (by decide)
  have h7 := C19_record_frame XR.arith ex_globals_two 0 ex_state ex_record 7
    (by decide) (by decide) (by decide) (by decide) (by decide)
  exact ⟨by decide, by decide, h2.1, h2.2, h7.1, h7.2, by with_unfolding_all decide⟩

/-! ## C20: the worker ranges tile the record file -/

/-- The record loop processes, in order, the first `n` records from the
file position on, or all of them when fewer are left. -/
theorem thread_loop_take {R : Type} (A : Arith R) (g : Globals R) (id : Int) (n : Nat) :
    ∀ (recs : List (CREC R)) (s : State R),
      thread_loop A g id n recs s = (recs.take n).foldl (process_record A g id) s := by
  induction n with
  | zero => intro recs s; simp [thread_loop]
  | succ n ih =>
    intro recs s
    cases recs with
    | nil => simp [thread_loop]
    | cons cr rest => simp [thread_loop, ih]

/-- The record count of worker `i`: the quotient for the workers before the
last, the quotient plus the remainder for the last. -/
theorem lines_at (num_lines num_threads : Int) (arr : Int → Int) (hT : 1 ≤ num_threads)
    (i : Int) (h0 : 0 ≤ i) (hi : i < num_threads) :
    fill_lines_per_thread num_lines num_threads arr i
      = if i < num_threads - 1 then num_lines.tdiv num_threads
        else num_lines.tdiv num_threads + num_lines.tmod num_threads := by
  obtain ⟨f1, f2⟩ := fill_lines_per_thread_spec num_lines num_threads arr hT
  by_cases h : i < num_threads - 1
  · rw [if_pos h]
    have := f1 i.toNat (by omega)
    rwa [Int.toNat_of_nonneg h0] at this
  · rw [if_neg h]
    have : i = num_threads - 1 := by omega
    rw [this, f2]

/-- The range of a worker lies inside the file, and each record index of the
file lies in the range of exactly one worker. -/
theorem ranges_tile (n T : Int) (arr : Int → Int) (hn : 0 ≤ n) (hT : 1 ≤ T) :
    (∀ i : Int, 0 ≤ i → i < T →
      0 ≤ start_record n T i ∧ 0 ≤ fill_lines_per_thread n T arr i ∧
      start_record n T i + fill_lines_per_thread n T arr i ≤ n) ∧
    (∀ r : Int, 0 ≤ r → r < n →
      ∃! i : Int, (0 ≤ i ∧ i < T) ∧ start_record n T i ≤ r ∧
        r < start_record n T i + fill_lines_per_thread n T arr i) := by
  have hq : n.tdiv T = n / T := Int.tdiv_eq_ediv hn (by omega)
  have hr : n.tmod T = n % T := Int.tmod_eq_emod hn (by omega)
  have hq0 : 0 ≤ n / T := Int.ediv_nonneg hn (by omega)
  have hr0 : 0 ≤ n % T := Int.emod_nonneg n (by omega)
  have hsum : T * (n / T) + n % T = n := Int.ediv_add_emod n T
  have hlines : ∀ i : Int, 0 ≤ i → i < T →
      fill_lines_per_thread n T arr i = if i < T - 1 then n / T else n / T + n % T := by
    intro i h0 hi
    rw [lines_at n T arr hT i h0 hi, hq, hr]
  have hstart : ∀ i : Int, start_record n T i = n / T * i := by
    intro i; unfold start_record; rw [hq]
  refine ⟨?_, ?_⟩
  · intro i h0 hi
    rw [hstart, hlines i h0 hi]
    have hmul : 0 ≤ n / T * i := mul_nonneg hq0 h0
    by_cases h : i < T - 1
    · rw [if_pos h]
      have : n / T * (i + 1) ≤ n / T * T := mul_le_mul_of_nonneg_left (by omega) hq0
      refine ⟨hmul, hq0, ?_⟩
      nlinarith
    · rw [if_neg h]
      have hiT : i = T - 1 := by omega
      subst hiT
      refine ⟨hmul, by omega, ?_⟩
      nlinarith
  · intro r hr0' hrn
    by_cases hlast : n / T * (T - 1) ≤ r
    · refine ⟨T - 1, ⟨⟨by omega, by omega⟩, ?_, ?_⟩, ?_⟩
      · rw [hstart]; exact hlast
      · rw [hstart, hlines (T - 1) (by omega) (by omega), if_neg (by omega)]
        nlinarith
      · rintro j ⟨⟨hj0, hjT⟩, hj1, hj2⟩
        by_contra hne
        have hj : j < T - 1 := by omega
        rw [hstart, hlines j hj0 hjT, if_pos hj] at hj2
        have : n / T * (j + 1) ≤ n / T * (T - 1) := mul_le_mul_of_nonneg_left (by omega) hq0
        nlinarith
    · have hlt : r < n / T * (T - 1) := by omega
      have hqpos : 0 < n / T := by
        by_contra h
        have : n / T = 0 := by omega
        rw [this] at hlt
        omega
      have hi0 : 0 ≤ r / (n / T) := Int.ediv_nonneg hr0' (le_of_lt hqpos)
      have hi1 : r / (n / T) < T - 1 :=
        Int.ediv_lt_of_lt_mul hqpos (by rw [mul_comm]; exact hlt)
      have hdm : n / T * (r / (n / T)) + r % (n / T) = r := Int.ediv_add_emod r (n / T)
      have hm0 : 0 ≤ r % (n / T) := Int.emod_nonneg r (ne_of_gt hqpos)
      have hm1 : r % (n / T) < n / T := Int.emod_lt_of_pos r hqpos
      refine ⟨r / (n / T), ⟨⟨hi0, by omega⟩, ?_, ?_⟩, ?_⟩
      · rw [hstart]; omega
      · rw [hstart, hlines _ hi0 (by omega), if_pos hi1]; omega
      · rintro j ⟨⟨hj0, hjT⟩, hj1, hj2⟩
        rw [hstart] at hj1
        rw [hstart, hlines j hj0 hjT] at hj2
        have hjlt : j < T - 1 := by
          by_contra h
          have : n / T * (T - 1) ≤ n / T * j := mul_le_mul_of_nonneg_left (by omega) hq0
          omega
        rw [if_pos hjlt] at hj2
        -- n/T * j ≤ r < n/T * j + n/T, so j is the quotient of r by n/T
        rcases lt_trichotomy j (r / (n / T)) with h | h | h
        · have : n / T * (j + 1) ≤ n / T * (r / (n / T)) :=
            mul_le_mul_of_nonneg_left (by omega) hq0
          nlinarith
        · exact h
        · have : n / T * (r / (n / T) + 1) ≤ n / T * j :=
            mul_le_mul_of_nonneg_left (by omega) hq0
          nlinarith

/-- C20. For `n ≥ 0` records, `T ≥ 1` workers and `q = n / T`: each worker
range `[q*i, q*i + lines_per_thread[i])`, `0 ≤ i < T`, lies inside `[0, n)`;
every record index of `[0, n)` belongs to the range of exactly one worker;
two distinct workers share no index; and on a file of exactly `n` records
worker `i` processes exactly the `lines_per_thread[i]` records of its range,
in order, without meeting the end of the file before. -/
theorem C20_exact_tiling {R : Type} (A : Arith R) (g : Globals R) (arr : Int → Int)
    (file : List (CREC R)) (s : State R)
    (hn : 0 ≤ g.num_lines) (hT : 1 ≤ g.num_threads)
    (hfile : (file.length : Int) = g.num_lines) :
    (∀ i : Int, 0 ≤ i → i < g.num_threads →
      0 ≤ start_record g.num_lines g.num_threads i ∧
      0 ≤ fill_lines_per_thread g.num_lines g.num_threads arr i ∧
      start_record g.num_lines g.num_threads i
        + fill_lines_per_thread g.num_lines g.num_threads arr i ≤ g.num_lines) ∧
    (∀ r : Int, 0 ≤ r → r < g.num_lines →
      ∃! i : Int, (0 ≤ i ∧ i < g.num_threads) ∧
        worker_range g.num_lines g.num_threads arr i r) ∧
    (∀ i j r : Int, 0 ≤ i → i < g.num_threads → 0 ≤ j → j < g.num_threads →
      worker_range g.num_lines g.num_threads arr i r →
      worker_range g.num_lines g.num_threads arr j r → i = j) ∧
    (∀ i : Int, 0 ≤ i → i < g.num_threads →
      glove_thread A g (fill_lines_per_thread g.num_lines g.num_threads arr) file i s
        = ((file.drop (start_record g.num_lines g.num_threads i).toNat).take
            (fill_lines_per_thread g.num_lines g.num_threads arr i).toNat).foldl
            (process_record A g i) (reset_cost A s i) ∧
      ((file.drop (start_record g.num_lines g.num_threads i).toNat).take
          (fill_lines_per_thread g.num_lines g.num_threads arr i).toNat).length
        = (fill_lines_per_thread g.num_lines g.num_threads arr i).toNat) := by
  obtain ⟨t1, t2⟩ := ranges_tile g.num_lines g.num_threads arr hn hT
  refine ⟨t1, ?_, ?_, ?_⟩
  · intro r h0 h1
    exact t2 r h0 h1
  · intro i j r hi0 hiT hj0 hjT hi hj
    obtain ⟨a1, a2, a3⟩ := t1 i hi0 hiT
    have hr0 : 0 ≤ r := le_trans a1 hi.1
    have hrn : r < g.num_lines := lt_of_lt_of_le hi.2 a3
    exact (t2 r hr0 hrn).unique ⟨⟨hi0, hiT⟩, hi⟩ ⟨⟨hj0, hjT⟩, hj⟩
  · intro i hi0 hiT
    obtain ⟨a1, a2, a3⟩ := t1 i hi0 hiT
    refine ⟨?_, ?_⟩
    · unfold glove_thread
      rw [thread_loop_take]
      rfl
    · rw [List.length_take, List.length_drop]
      omega

/-- C20 at 7 records and 3 workers: the ranges are `[0, 2)`, `[2, 4)` and
`[4, 7)`; record 5 belongs to the range of exactly one worker, and on a file
of 7 records worker 2 processes the 3 records of its range. -/
theorem C20_exact_tiling_witness :
    start_record 7 3 2 = 4 ∧ fill_lines_per_thread 7 3 (fun _ => 0) 2 = 3 ∧
    (∃! i : Int, (0 ≤ i ∧ i < ex_globals_73.num_threads) ∧
      worker_range ex_globals_73.num_lines ex_globals_73.num_threads (fun _ => 0) i 5) ∧
    (List.take
        (fill_lines_per_thread ex_globals_73.num_lines ex_globals_73.num_threads
          (fun _ => 0) 2).toNat
        (List.drop (start_record ex_globals_73.num_lines ex_globals_73.num_threads 2).toNat
          (List.replicate 7 ex_record))).length = 3 := by
  have h := C20_exact_tiling XR.arith ex_globals_73 (fun _ => 0) (List.replicate 7 ex_record)
    ex_state (by decide) (by decide) (by decide)
  exact ⟨by decide, by decide, h.2.1 5 (by decide) (by decide),
    (h.2.2.2 2 (by decide) (by decide)).2.trans (by decide)⟩

end GloVe
